import Mathlib

/-!
Verification development for the `constraint-validator` subsystem
(`authority_model.py`, `constraint_extractor.py`, `z3_validator.py`).

The Python source is shallowly embedded: pure functions become Lean
functions, the mutable `AuthorityRanker.court_cache`, the extractor's
`constraint_counter` and the validator's `constraint_db` become explicit
state that is threaded through, and the Z3 solver (an external library)
is abstracted as any function satisfying the soundness/completeness
contract `goodSolver`, instantiated by the executable `bruteCheck`.
Machine floats (`confidence`) are carried as rationals; no claim inspects
their arithmetic.  Strings are treated as their character lists; the
inputs exercised here are ASCII, for which Python's `str.lower`,
`str.title` and the `re` character classes coincide with the character
level models below.
-/

namespace CV

/-! ### Character and string helpers (models of Python primitives) -/

/-- Model of Python `str.lower` (ASCII). -/
def strLower (s : String) : String := ⟨s.data.map Char.toLower⟩

/-- Python regex `\d`. -/
def isDigitCh (c : Char) : Bool := '0' ≤ c && c ≤ '9'

/-- Python regex `\s` (ASCII whitespace). -/
def isSpaceCh (c : Char) : Bool :=
  c = ' ' || c = '\t' || c = '\n' || c = '\r' || c.toNat = 11 || c.toNat = 12

/-- Python regex `\w` (ASCII word character). -/
def isWordCh (c : Char) : Bool :=
  ('a' ≤ c && c ≤ 'z') || ('A' ≤ c && c ≤ 'Z') || isDigitCh c || c = '_'

/-- Python `c.isalpha()` (ASCII). -/
def isAlphaCh (c : Char) : Bool :=
  ('a' ≤ c && c ≤ 'z') || ('A' ≤ c && c ≤ 'Z')

/-- Does list `p` occur at the head of `s`? -/
def leadsWith : List Char → List Char → Bool
  | [], _ => true
  | _ :: _, [] => false
  | p :: ps, x :: xs => p = x && leadsWith ps xs

/-- Does list `p` occur anywhere inside `s`?  Models Python `p in s`
(substring containment) for strings. -/
def containsSub (p : List Char) (s : List Char) : Bool :=
  match s with
  | [] => leadsWith p []
  | _ :: xs => leadsWith p s || containsSub p xs

/-- Model of Python `any(x in t for x in l)`. -/
def containsAnySub (t : String) (l : List String) : Bool :=
  l.any (fun x => containsSub x.data t.data)

/-- Model of Python `str.title` restricted to cased = ASCII letters:
the first letter of each letter-run is uppercased, the rest lowercased. -/
def pyTitleGo : List Char → Bool → List Char
  | [], _ => []
  | c :: cs, prevAlpha =>
    (if isAlphaCh c then (if prevAlpha then c.toLower else c.toUpper) else c)
      :: pyTitleGo cs (isAlphaCh c)

def pyTitle (s : String) : String := ⟨pyTitleGo s.data false⟩

/-- Python formatting of an optional string: `None` prints as `"None"`. -/
def pyOptStr : Option String → String
  | none => "None"
  | some s => s

/-! ### Base-10 numerals: the model of Python `str(n)` for `n : Nat`,
used by the id/variable allocator `f"c_{k}"` / `f"fact_{k}"`. -/

def digitOfNat (d : Nat) : Char := Char.ofNat (48 + d)

/-- Big-endian digit list of `n`; `fuel ≥ n + 1` always suffices. -/
def natDigitsAux : Nat → Nat → List Char
  | 0, _ => []
  | fuel + 1, n =>
    if n < 10 then [digitOfNat n]
    else natDigitsAux fuel (n / 10) ++ [digitOfNat (n % 10)]

/-- Decimal representation of a natural number (= Python `str(n)`). -/
def natStr (n : Nat) : String := ⟨natDigitsAux (n + 1) n⟩

/-- Value of a big-endian digit list, the inverse used to show `natStr`
is injective. -/
def digitsVal (l : List Char) : Nat :=
  l.foldl (fun a c => a * 10 + (c.toNat - 48)) 0

theorem digitsVal_append (l : List Char) (c : Char) :
    digitsVal (l ++ [c]) = digitsVal l * 10 + (c.toNat - 48) := by
  simp [digitsVal, List.foldl_append]

theorem toNat_digitOfNat {d : Nat} (h : d < 10) :
    (digitOfNat d).toNat = 48 + d := by
  interval_cases d <;> decide

theorem digitsVal_natDigitsAux :
    ∀ fuel n, n < fuel → digitsVal (natDigitsAux fuel n) = n := by
  intro fuel
  induction fuel with
  | zero => intro n h; omega
  | succ f ih =>
    intro n h
    by_cases h10 : n < 10
    · simp only [natDigitsAux, if_pos h10]
      simp [digitsVal, toNat_digitOfNat h10]
    · simp only [natDigitsAux, if_neg h10]
      rw [digitsVal_append, ih (n / 10) (by omega)]
      have h9 : n % 10 < 10 := Nat.mod_lt _ (by omega)
      rw [toNat_digitOfNat h9]
      omega

theorem natStr_injective : Function.Injective natStr := by
  intro a b h
  have hdata : natDigitsAux (a + 1) a = natDigitsAux (b + 1) b := by
    have := congrArg String.data h
    simpa [natStr] using this
  have := congrArg digitsVal hdata
  rwa [digitsVal_natDigitsAux _ a (by omega),
       digitsVal_natDigitsAux _ b (by omega)] at this

/-! ### A small regex engine.

Every regular expression appearing in the Python source is a sequence of
the following tokens: a literal character, an optional literal (`c?`),
`\d+`/`\s+`/`\w+` (class-plus), `\d*`/`\s*` (class-star), and a
two-character alternation group such as `(st|nd|rd|th)`.  `matchTok`
matches a token sequence at the head of a character list, backtracking
with Python's greedy preference order, and returns the remainder after
the match; `reSearch` scans left to right like `re.search`, returning
the leftmost match (`group(0)`).  The recursion is fuelled; every step
shrinks `toks.length + s.length`, so `fuel = toks.length + s.length + 1`
is always enough at the call sites below. -/

inductive CharCl where
  | digit
  | space
  | word
deriving DecidableEq

def CharCl.mem : CharCl → Char → Bool
  | .digit, c => isDigitCh c
  | .space, c => isSpaceCh c
  | .word, c => isWordCh c

inductive Tok where
  | lit (c : Char)
  | optLit (c : Char)
  | clsPlus (k : CharCl)
  | clsStar (k : CharCl)
  | alt2 (ps : List (Char × Char))
deriving DecidableEq

def matchTok : Nat → List Tok → List Char → Option (List Char)
  | 0, _, _ => none
  | _ + 1, [], s => some s
  | f + 1, .lit c :: rest, s =>
    match s with
    | x :: xs => if x = c then matchTok f rest xs else none
    | [] => none
  | f + 1, .optLit c :: rest, s =>
    (match s with
     | x :: xs => if x = c then matchTok f rest xs else none
     | [] => none) <|> matchTok f rest s
  | f + 1, .clsPlus k :: rest, s =>
    match s with
    | x :: xs => if k.mem x then matchTok f (.clsStar k :: rest) xs else none
    | [] => none
  | f + 1, .clsStar k :: rest, s =>
    (match s with
     | x :: xs => if k.mem x then matchTok f (.clsStar k :: rest) xs else none
     | [] => none) <|> matchTok f rest s
  | f + 1, .alt2 ps :: rest, s =>
    match s with
    | a :: b :: xs => if ps.any (fun p => p.1 = a && p.2 = b) then matchTok f rest xs else none
    | _ => none

/-- `re.search`: leftmost match; returns `group(0)` (the matched text). -/
def reSearchGo (fuel : Nat) (toks : List Tok) : List Char → Option String
  | [] => (matchTok fuel toks []).map (fun _ => "")
  | x :: xs =>
    match matchTok fuel toks (x :: xs) with
    | some rem => some ⟨(x :: xs).take ((x :: xs).length - rem.length)⟩
    | none => reSearchGo fuel toks xs

def reSearch (toks : List Tok) (s : List Char) : Option String :=
  reSearchGo (toks.length + s.length + 1) toks s

/-- Boolean form of `re.search(pattern, text)` (match exists). -/
def reTest (toks : List Tok) (s : List Char) : Bool :=
  (reSearch toks s).isSome

/-- Literal characters of a pattern fragment. -/
def lits (s : String) : List Tok := s.data.map Tok.lit

/-! ### `authority_model.py` — data model

`AuthorityLevel` is a Python `IntEnum`; members with equal values are
*aliases* of one member (`STATE_SUPREME is CIRCUIT_COURT`,
`STATE_APPEALS is DISTRICT_COURT`, `DOCUMENT_EVIDENCE is
WITNESS_STATEMENT`).  We therefore embed levels as their integer
values. -/

def SUPREME_COURT : Nat := 1
def CIRCUIT_COURT : Nat := 2
def STATE_SUPREME : Nat := 2
def DISTRICT_COURT : Nat := 3
def STATE_APPEALS : Nat := 3
def TRIAL_COURT : Nat := 4
def ADMINISTRATIVE : Nat := 5
def SECONDARY_SOURCE : Nat := 6
def WITNESS_STATEMENT : Nat := 7
def DOCUMENT_EVIDENCE : Nat := 7
def UNKNOWN : Nat := 10

/-- `AuthorityLevel(v).name`: the canonical (first-declared) enum member
name for each value, as produced by Python's `IntEnum` for aliases. -/
def levelName : Nat → String
  | 1 => "SUPREME_COURT"
  | 2 => "CIRCUIT_COURT"
  | 3 => "DISTRICT_COURT"
  | 4 => "TRIAL_COURT"
  | 5 => "ADMINISTRATIVE"
  | 6 => "SECONDARY_SOURCE"
  | 7 => "WITNESS_STATEMENT"
  | 10 => "UNKNOWN"
  | _ => ""

/-- The `source` record consumed by `detect_authority` (a Python dict;
`.get(key, '')` defaults missing string fields to `''`, and the `date`
key, read with default `'9999'` in `rank_constraints`, is `none` when
absent). -/
structure Source where
  doc_title : String := ""
  court : String := ""
  quote : String := ""
  doc_type : String := ""
  date : Option String := none
deriving DecidableEq

structure AuthorityInfo where
  level : Nat
  court_name : Option String := none
  jurisdiction : Option String := none
  date : Option String := none
  binding : Bool := true
  overruled : Bool := false
deriving DecidableEq

/-- The mutable `AuthorityRanker` instance state: `self.court_cache`. -/
structure Ranker where
  court_cache : List (String × AuthorityInfo) := []
deriving DecidableEq

/-! #### The court pattern table

Each Python regex is transcribed to a `Tok` sequence; the regex source
text is quoted above each definition. -/

/-- `supreme\s+court\s+of\s+the\s+united\s+states` -/
def patSupreme1 : List Tok :=
  lits "supreme" ++ [.clsPlus .space] ++ lits "court" ++ [.clsPlus .space] ++
  lits "of" ++ [.clsPlus .space] ++ lits "the" ++ [.clsPlus .space] ++
  lits "united" ++ [.clsPlus .space] ++ lits "states"

/-- `u\.?\s*s\.?\s+supreme\s+court` -/
def patSupreme2 : List Tok :=
  [.lit 'u', .optLit '.', .clsStar .space, .lit 's', .optLit '.', .clsPlus .space] ++
  lits "supreme" ++ [.clsPlus .space] ++ lits "court"

/-- `scotus` -/
def patSupreme3 : List Tok := lits "scotus"

/-- `\d+\s+u\.?\s*s\.?\s+\d+` (U.S. Reports citation) -/
def patSupreme4 : List Tok :=
  [.clsPlus .digit, .clsPlus .space, .lit 'u', .optLit '.', .clsStar .space,
   .lit 's', .optLit '.', .clsPlus .space, .clsPlus .digit]

def supremePats : List (List Tok) := [patSupreme1, patSupreme2, patSupreme3, patSupreme4]

/-- `(st|nd|rd|th)` -/
def ordAlt : Tok := .alt2 [('s', 't'), ('n', 'd'), ('r', 'd'), ('t', 'h')]

/-- `(\d+)(st|nd|rd|th)\s+circuit` -/
def patCircuit1 : List Tok :=
  [.clsPlus .digit, ordAlt, .clsPlus .space] ++ lits "circuit"

/-- `court\s+of\s+appeals?\s+for\s+the\s+(\d+)(st|nd|rd|th)\s+circuit` -/
def patCircuit2 : List Tok :=
  lits "court" ++ [.clsPlus .space] ++ lits "of" ++ [.clsPlus .space] ++
  lits "appeal" ++ [.optLit 's', .clsPlus .space] ++ lits "for" ++ [.clsPlus .space] ++
  lits "the" ++ [.clsPlus .space, .clsPlus .digit, ordAlt, .clsPlus .space] ++ lits "circuit"

/-- `\d+\s+f\.\s*\d*d?\s+\d+` (Federal Reporter citation) -/
def patCircuit3 : List Tok :=
  [.clsPlus .digit, .clsPlus .space, .lit 'f', .lit '.', .clsStar .space,
   .clsStar .digit, .optLit 'd', .clsPlus .space, .clsPlus .digit]

def circuitPats : List (List Tok) := [patCircuit1, patCircuit2, patCircuit3]

/-- `district\s+court` -/
def patDistrict1 : List Tok := lits "district" ++ [.clsPlus .space] ++ lits "court"

/-- `u\.?\s*s\.?\s*d\.?\s*c\.?` -/
def patDistrict2 : List Tok :=
  [.lit 'u', .optLit '.', .clsStar .space, .lit 's', .optLit '.', .clsStar .space,
   .lit 'd', .optLit '.', .clsStar .space, .lit 'c', .optLit '.']

/-- `\d+\s+f\.\s*supp` (Federal Supplement citation) -/
def patDistrict3 : List Tok :=
  [.clsPlus .digit, .clsPlus .space, .lit 'f', .lit '.', .clsStar .space] ++ lits "supp"

def districtPats : List (List Tok) := [patDistrict1, patDistrict2, patDistrict3]

/-- `supreme\s+court\s+of\s+\w+` -/
def patStateSup1 : List Tok :=
  lits "supreme" ++ [.clsPlus .space] ++ lits "court" ++ [.clsPlus .space] ++
  lits "of" ++ [.clsPlus .space, .clsPlus .word]

/-- `\w+\s+supreme\s+court` -/
def patStateSup2 : List Tok :=
  [.clsPlus .word, .clsPlus .space] ++ lits "supreme" ++ [.clsPlus .space] ++ lits "court"

def stateSupremePats : List (List Tok) := [patStateSup1, patStateSup2]

/-- `trial\s+court`, `superior\s+court`, `county\s+court` -/
def trialPats : List (List Tok) :=
  [lits "trial" ++ [.clsPlus .space] ++ lits "court",
   lits "superior" ++ [.clsPlus .space] ++ lits "court",
   lits "county" ++ [.clsPlus .space] ++ lits "court"]

/-- Python dict assignment semantics for a literal `{k1: v1, ...}`:
a repeated key overwrites the earlier value in place. -/
def pyDictInsert {κ α : Type} [DecidableEq κ] (k : κ) (v : α)
    (d : List (κ × α)) : List (κ × α) :=
  if d.any (fun p => p.1 = k) then
    d.map (fun p => if p.1 = k then (k, v) else p)
  else d ++ [(k, v)]

/-- The `COURT_PATTERNS` dict literal, entry by entry in source order.
Because `STATE_SUPREME` is the same `IntEnum` member (hence the same
dict key) as `CIRCUIT_COURT`, its entry *overwrites* the circuit-court
pattern list. -/
def COURT_PATTERNS : List (Nat × List (List Tok)) :=
  [(SUPREME_COURT, supremePats),
   (CIRCUIT_COURT, circuitPats),
   (DISTRICT_COURT, districtPats),
   (STATE_SUPREME, stateSupremePats),
   (TRIAL_COURT, trialPats)].foldl (fun d kv => pyDictInsert kv.1 kv.2 d) []

/-- Iteration of `_detect_from_text` over the pattern dict (insertion
order, first level whose patterns match wins). -/
def detectFromTextGo : List (Nat × List (List Tok)) → List Char → Nat
  | [], _ => UNKNOWN
  | (lvl, pats) :: rest, t =>
    if pats.any (fun p => reTest p t) then lvl else detectFromTextGo rest t

/-- `AuthorityRanker._detect_from_text` (the `re.IGNORECASE` flag is
subsumed by lower-casing: all pattern literals are lower-case ASCII). -/
def detectFromText (text : String) : Nat :=
  detectFromTextGo COURT_PATTERNS (strLower text).data

/-! #### `_detect_jurisdiction` -/

/-- Match `(\d+)(st|nd|rd|th)\s+circuit` at the head of `s`, returning
capture group 1 (the digits).  The greedy `\d+` is safe maximal munch:
no alternative of the following group starts with a digit. -/
def circuitCapAt (s : List Char) : Option String :=
  let ds := s.takeWhile isDigitCh
  if ds.isEmpty then none
  else
    match s.dropWhile isDigitCh with
    | a :: b :: rest =>
      if [('s', 't'), ('n', 'd'), ('r', 'd'), ('t', 'h')].any
           (fun p => p.1 = a && p.2 = b) then
        if (rest.takeWhile isSpaceCh).isEmpty then none
        else if leadsWith "circuit".data (rest.dropWhile isSpaceCh) then some ⟨ds⟩
        else none
      else none
    | _ => none

/-- Leftmost `re.search` for the circuit-number capture. -/
def circuitCap : List Char → Option String
  | [] => none
  | c :: cs =>
    match circuitCapAt (c :: cs) with
    | some g => some g
    | none => circuitCap cs

def usStates : List String :=
  ["alabama", "alaska", "arizona", "arkansas", "california",
   "colorado", "connecticut", "delaware", "florida", "georgia",
   "hawaii", "idaho", "illinois", "indiana", "iowa", "kansas",
   "kentucky", "louisiana", "maine", "maryland", "massachusetts",
   "michigan", "minnesota", "mississippi", "missouri", "montana",
   "nebraska", "nevada", "new hampshire", "new jersey", "new mexico",
   "new york", "north carolina", "north dakota", "ohio", "oklahoma",
   "oregon", "pennsylvania", "rhode island", "south carolina",
   "south dakota", "tennessee", "texas", "utah", "vermont",
   "virginia", "washington", "west virginia", "wisconsin", "wyoming"]

/-- `AuthorityRanker._detect_jurisdiction`. -/
def detectJurisdiction (text : String) : Option String :=
  match circuitCap text.data with
  | some num => some (num ++ "th Circuit")
  | none =>
    let tl := strLower text
    match usStates.find? (fun st => containsSub st.data tl.data) with
    | some st => some (pyTitle st)
    | none => none

/-- `AuthorityRanker.detect_authority`, with the instance cache made
explicit.  Returns the `AuthorityInfo` and the updated ranker state. -/
def detectAuthority (r : Ranker) (source : Source) : AuthorityInfo × Ranker :=
  let doc_title := strLower source.doc_title
  let court := strLower source.court
  let quote := strLower source.quote
  let doc_type := strLower source.doc_type
  let cache_key := doc_title ++ ":" ++ court
  match r.court_cache.lookup cache_key with
  | some info => (info, r)
  | none =>
    let level := detectFromText court
    let level := if level = UNKNOWN then detectFromText doc_title else level
    let level := if level = UNKNOWN then detectFromText quote else level
    let level :=
      if level = UNKNOWN then
        if containsAnySub doc_type ["fd-302", "fbi", "interview", "statement"] then
          WITNESS_STATEMENT
        else if containsAnySub doc_type ["indictment", "motion", "filing"] then
          TRIAL_COURT
        else if containsAnySub doc_type ["email", "memo", "document"] then
          DOCUMENT_EVIDENCE
        else level
      else level
    let level := if level = UNKNOWN then DOCUMENT_EVIDENCE else level
    let info : AuthorityInfo :=
      { level := level
        court_name := some (if court = "" then doc_title else court)
        jurisdiction := detectJurisdiction (if court = "" then doc_title else court)
        binding := decide (level ≤ DISTRICT_COURT) }
    (info, ⟨r.court_cache ++ [(cache_key, info)]⟩)

/-! ### `rank_constraints` / `resolve_conflict`

Python's `sorted` is a stable sort; it first computes the key of every
element in list order (threading the cache state through
`detect_authority`), then sorts.  We model it by a stable insertion
sort: an element is inserted after exactly the elements strictly below
it. -/

/-- Stable insertion into a sorted list. -/
def insertLe {α : Type} (le : α → α → Bool) (x : α) : List α → List α
  | [] => [x]
  | y :: ys => if le y x && !le x y then y :: insertLe le x ys else x :: y :: ys

/-- Stable insertion sort (same output order as Python `sorted`). -/
def sortLe {α : Type} (le : α → α → Bool) : List α → List α
  | [] => []
  | x :: xs => insertLe le x (sortLe le xs)

/-- Python `<` on `bool` (False < True). -/
def boolNat (b : Bool) : Nat := if b then 1 else 0

/-- Lexicographic order on the 3-key tuple
`(auth.level, not auth.binding, source.get('date', '9999'))`. -/
def keyLe (a b : Nat × Bool × String) : Bool :=
  a.1 < b.1 ||
    (a.1 = b.1 && (boolNat a.2.1 < boolNat b.2.1 ||
      (a.2.1 = b.2.1 && decide (a.2.2 ≤ b.2.2))))

/-- A constraint dict as consumed by `authority_model.py`: only the
`source` entry is read; `label` stands for the remaining entries of the
dict, which the authority code never inspects. -/
structure AConstraint where
  source : Option Source := none
  label : String := ""
deriving DecidableEq, Inhabited

/-- `get_authority_key` inside `rank_constraints`. -/
def authorityKey (r : Ranker) (c : AConstraint) :
    (Nat × Bool × String) × Ranker :=
  let src := c.source.getD {}
  let (auth, r') := detectAuthority r src
  ((auth.level, !auth.binding, src.date.getD "9999"), r')

/-- Key computation pass of `sorted(constraints, key=get_authority_key)`
(keys are computed in list order). -/
def computeKeys (r : Ranker) :
    List AConstraint → List (AConstraint × (Nat × Bool × String)) × Ranker
  | [] => ([], r)
  | c :: cs =>
    let (k, r1) := authorityKey r c
    let (ks, r2) := computeKeys r1 cs
    ((c, k) :: ks, r2)

/-- `AuthorityRanker.rank_constraints`. -/
def rankConstraints (r : Ranker) (cs : List AConstraint) :
    List AConstraint × Ranker :=
  let (ks, r') := computeKeys r cs
  ((sortLe (fun a b => keyLe a.2 b.2) ks).map Prod.fst, r')

structure ResolveResult where
  resolved : Bool
  winner : Option AConstraint := none
  loser : Option AConstraint := none
  reason : String := ""
  constraints : Option (List AConstraint) := none
  recommendation : Option String := none
  authority_hierarchy : Option (List (AConstraint × String)) := none
deriving DecidableEq

/-- The `authority_hierarchy` comprehension of `resolve_conflict`
(each entry pairs a constraint with its authority level name; the
`detect_authority` calls thread the cache). -/
def authorityHierarchy (r : Ranker) :
    List AConstraint → List (AConstraint × String) × Ranker
  | [] => ([], r)
  | c :: cs =>
    let (a, r1) := detectAuthority r (c.source.getD {})
    let (t, r2) := authorityHierarchy r1 cs
    ((c, levelName a.level) :: t, r2)

/-- `AuthorityRanker.resolve_conflict`.  `ranked[0]` / `ranked[-1]` are
modelled by `headD` / `getLastD`; the ranked list of a two-or-more
element input is never empty, so the defaults are never reached. -/
def resolveConflict (r : Ranker) (conflicting : List AConstraint) :
    ResolveResult × Ranker :=
  match conflicting with
  | [] => ({ resolved := false, reason := "No constraints provided" }, r)
  | [c] => ({ resolved := true, winner := some c, reason := "Only one constraint" }, r)
  | _ =>
    let (ranked, r1) := rankConstraints r conflicting
    let winner := ranked.headD {}
    let loser := ranked.getLastD {}
    let (winner_auth, r2) := detectAuthority r1 (winner.source.getD {})
    let (loser_auth, r3) := detectAuthority r2 (loser.source.getD {})
    if winner_auth.level = loser_auth.level then
      ({ resolved := false
         reason := "Same authority level (" ++ levelName winner_auth.level ++ ")"
         constraints := some ranked
         recommendation := some "Manual review required - same authority level" }, r3)
    else
      let (hier, r4) := authorityHierarchy r3 ranked
      ({ resolved := true
         winner := some winner
         loser := some loser
         reason := levelName winner_auth.level ++ " (" ++
           pyOptStr winner_auth.court_name ++ ") overrides " ++
           levelName loser_auth.level ++ " (" ++
           pyOptStr loser_auth.court_name ++ ")"
         authority_hierarchy := some hier }, r4)

/-! ### `constraint_extractor.py` — data model -/

/-- `ConstraintType` (a `str`-valued enum with distinct values). -/
inductive CType where
  | assertion
  | negation
  | implication
  | temporal
  | equivalence
  | exclusion
deriving DecidableEq

def CType.val : CType → String
  | .assertion => "assertion"
  | .negation => "negation"
  | .implication => "implication"
  | .temporal => "temporal"
  | .equivalence => "equivalence"
  | .exclusion => "exclusion"

structure Provenance where
  doc_id : String := ""
  doc_title : String := ""
  paragraph : Option Int := none
  page : Option Int := none
  quote : String := ""
  court : Option String := none
  date : Option String := none
  doc_type : Option String := none
deriving DecidableEq

/-- `Constraint` dataclass.  `confidence` (a Python float never used in
arithmetic) is carried as a rational. -/
structure Constraint where
  id : String
  constraint_type : CType
  subject : String
  predicate : Option String := none
  variables' : List String := []  -- `variables` (Lean keyword)
  logic_form : String := ""
  natural_language : String := ""
  confidence : Rat := 4/5
  provenance : Option Provenance := none
  is_hard : Bool := true
deriving DecidableEq

/-- A finding dict (`quote`/`document`/... with the documented defaults;
the capital-letter fallback keys of `_extract_from_finding` are folded
into the one field). -/
structure Finding where
  quote : String := ""
  document : String := "Unknown"
  significance : String := ""
  entities : List String := []
  doc_id : String := ""
  paragraph : Option Int := none
  page : Option Int := none
  court : Option String := none
  date : Option String := none
  doc_type : Option String := none
deriving DecidableEq

/-- Provenance built by `_extract_from_finding` (quote truncated to 500
characters). -/
def provOf (f : Finding) : Provenance :=
  { doc_id := f.doc_id
    doc_title := f.document
    paragraph := f.paragraph
    page := f.page
    quote := f.quote.take 500
    court := f.court
    date := f.date
    doc_type := f.doc_type }

/-! #### `_pattern_extract` -/

/-- The apostrophe character (codepoint 39). -/
def apoCh : Char := Char.ofNat 39

/-- Negation cue regexes, in source order:
`did not (\w+)`, `never (\w+)`, `didn't (\w+)`, `was not (\w+)`,
`no (\w+) was`. -/
def negationPatterns : List (List Tok) :=
  [lits "did not " ++ [.clsPlus .word],
   lits "never " ++ [.clsPlus .word],
   lits "didn" ++ [.lit apoCh] ++ lits "t " ++ [.clsPlus .word],
   lits "was not " ++ [.clsPlus .word],
   lits "no " ++ [.clsPlus .word] ++ lits " was"]

/-- Assertion cue regexes, in source order:
`(\w+) confirmed that`, `(\w+) stated that`, `(\w+) was (\w+)`,
`(\w+) met (\w+)`. -/
def assertionPatterns : List (List Tok) :=
  [[.clsPlus .word] ++ lits " confirmed that",
   [.clsPlus .word] ++ lits " stated that",
   [.clsPlus .word] ++ lits " was " ++ [.clsPlus .word],
   [.clsPlus .word] ++ lits " met " ++ [.clsPlus .word]]

/-- The fresh Z3 variable name `f"fact_{n}"` minted by the fallback. -/
def factVar (n : Nat) : String := "fact_" ++ natStr n

/-- The negation-branch constraint built from `match.group(0)` after the
counter was bumped to `n`. -/
def mkNegC (prov : Provenance) (matched : String) (n : Nat) : Constraint :=
  { id := "c_" ++ natStr n
    constraint_type := .negation
    subject := matched
    variables' := [factVar n]
    logic_form := factVar n ++ " == False"
    natural_language := matched
    confidence := 3/5
    provenance := some prov
    is_hard := true }

/-- The assertion-branch constraint. -/
def mkAssertC (prov : Provenance) (matched : String) (n : Nat) : Constraint :=
  { id := "c_" ++ natStr n
    constraint_type := .assertion
    subject := matched
    variables' := [factVar n]
    logic_form := factVar n ++ " == True"
    natural_language := matched
    confidence := 1/2
    provenance := some prov
    is_hard := true }

/-- One pattern loop of `_pattern_extract`: each matching pattern bumps
the instance counter and appends one constraint. -/
def scanPats (mk : String → Nat → Constraint) :
    List (List Tok) → List Char → Nat → List Constraint × Nat
  | [], _, k => ([], k)
  | p :: ps, q, k =>
    match reSearch p q with
    | some m =>
      let (cs, k') := scanPats mk ps q (k + 1)
      (mk m (k + 1) :: cs, k')
    | none => scanPats mk ps q k

/-- `ConstraintExtractor._pattern_extract` (the `entities` argument is
unused by the source body). -/
def patternExtract (quote : String) (prov : Provenance) (k : Nat) :
    List Constraint × Nat :=
  let ql := (strLower quote).data
  let (negs, k1) := scanPats (mkNegC prov) negationPatterns ql k
  let (asserts, k2) := scanPats (mkAssertC prov) assertionPatterns ql k1
  (negs ++ asserts, k2)

/-- `_extract_from_finding` in the run where the LLM path yielded zero
constraints, so the pattern fallback is used (empty quote short-circuits
to no constraints). -/
def extractFromFindingFB (f : Finding) (k : Nat) : List Constraint × Nat :=
  if f.quote = "" then ([], k) else patternExtract f.quote (provOf f) k

/-- The per-finding loop of `extract_constraints`, abstracted over the
single-finding extractor (LLM or fallback), threading the instance
counter in the fixed processing order of findings. -/
def extractRaw (perF : Finding → Nat → List Constraint × Nat) :
    List Finding → Nat → List Constraint × Nat
  | [], k => ([], k)
  | f :: fs, k =>
    let (cs, k1) := perF f k
    let (rest, k2) := extractRaw perF fs k1
    (cs ++ rest, k2)

/-- The dedup loop of `extract_constraints` (`seen_logic` set,
first occurrence wins). -/
def dedupGo (seen : List String) : List Constraint → List Constraint
  | [] => []
  | c :: rest =>
    if seen.contains c.logic_form then dedupGo seen rest
    else c :: dedupGo (c.logic_form :: seen) rest

def dedupByLogicForm (cs : List Constraint) : List Constraint := dedupGo [] cs

/-- `ConstraintExtractor.extract_constraints`. -/
def extractConstraints (perF : Finding → Nat → List Constraint × Nat)
    (fs : List Finding) (k : Nat) : List Constraint × Nat :=
  let (cs, k') := extractRaw perF fs k
  (dedupByLogicForm cs, k')

/-- `extract_constraints` when every finding goes through the pattern
fallback. -/
def extractConstraintsFB (fs : List Finding) (k : Nat) : List Constraint × Nat :=
  extractConstraints extractFromFindingFB fs k

/-! ### `z3_validator.py` — boolean expressions and the logic-form parser

Z3 `BoolRef` terms built by `_parse_logic_to_z3` are propositional
formulas over named boolean constants; `BExpr` is their syntax and
`evalB` the boolean semantics used by the solver contract below. -/

inductive BExpr where
  | var (v : String)
  | val (b : Bool)
  | not (e : BExpr)
  | and (a b : BExpr)
  | or (a b : BExpr)
  | implies (a b : BExpr)
  | iff (a b : BExpr)
deriving DecidableEq

def evalB (m : String → Bool) : BExpr → Bool
  | .var v => m v
  | .val b => b
  | .not e => !evalB m e
  | .and a b => evalB m a && evalB m b
  | .or a b => evalB m a || evalB m b
  | .implies a b => !evalB m a || evalB m b
  | .iff a b => evalB m a == evalB m b

def exprVars : BExpr → List String
  | .var v => [v]
  | .val _ => []
  | .not e => exprVars e
  | .and a b => exprVars a ++ exprVars b
  | .or a b => exprVars a ++ exprVars b
  | .implies a b => exprVars a ++ exprVars b
  | .iff a b => exprVars a ++ exprVars b

/-- The function objects reachable in the `eval` namespace: the four Z3
connectives placed in `safe_ns`, and closures created by `lambda`
expressions (closures are opaque — their bodies are never evaluated by
`_parse_logic_to_z3`, only passed to `assert_and_track`). -/
inductive FuncKind where
  | fAnd
  | fOr
  | fNot
  | fImplies
  | fLam
deriving DecidableEq

/-- A Python value produced by `_parse_logic_to_z3`: a Z3 boolean
expression (`BoolRef`), or — from the `eval` fallback — a plain Python
`bool`, `int`, `float` (kept as its literal text; no claim ever
inspects the numeric value), `str`, `tuple`, `None`, or a function
object.  Only the `.expr` case is a Z3 `BoolRef`; `assert_and_track`
rejects everything else (`Z3Exception: Boolean expression expected`). -/
inductive PyVal where
  | expr (e : BExpr)
  | bool (b : Bool)
  | int (n : Int)
  | float (lit : String)
  | str (s : String)
  | tuple (vs : List PyVal)
  | func (k : FuncKind)
  | pynone

def dropSpaces (s : List Char) : List Char := s.dropWhile isSpaceCh

/-- `re.match(r'(\w+)\s*OP\s*(True|False)', lf)` for `OP` one of
`==` / `!=` (`re.match` anchors at the start and ignores trailing
text; `(True|False)` tries `True` first). -/
def reMatchCmp (op : List Char) (lf : String) : Option (String × Bool) :=
  let s := lf.data
  let name := s.takeWhile isWordCh
  if name.isEmpty then none
  else
    let rest := dropSpaces (s.dropWhile isWordCh)
    if leadsWith op rest then
      let rest2 := dropSpaces (rest.drop op.length)
      if leadsWith "True".data rest2 then some (⟨name⟩, true)
      else if leadsWith "False".data rest2 then some (⟨name⟩, false)
      else none
    else none

/-- `re.match(r'F\((\w+)\)', lf)`. -/
def reMatchCall1 (fname : String) (lf : String) : Option String :=
  let s := lf.data
  if leadsWith (fname ++ "(").data s then
    let rest := s.drop (fname.length + 1)
    let name := rest.takeWhile isWordCh
    if name.isEmpty then none
    else
      match rest.dropWhile isWordCh with
      | ')' :: _ => some ⟨name⟩
      | _ => none
  else none

/-- `re.match(r'F\((\w+),\s*(\w+)\)', lf)`. -/
def reMatchCall2 (fname : String) (lf : String) : Option (String × String) :=
  let s := lf.data
  if leadsWith (fname ++ "(").data s then
    let rest := s.drop (fname.length + 1)
    let a := rest.takeWhile isWordCh
    if a.isEmpty then none
    else
      match rest.dropWhile isWordCh with
      | ',' :: rest2 =>
        let rest3 := dropSpaces rest2
        let b := rest3.takeWhile isWordCh
        if b.isEmpty then none
        else
          match rest3.dropWhile isWordCh with
          | ')' :: _ => some (⟨a⟩, ⟨b⟩)
          | _ => none
      | _ => none
  else none

/-- Lazy Z3 variable creation: `if v not in z3_vars: z3_vars[v] = Bool(v)`
(dict insertion order preserved). -/
def addVar (v : String) (vars : List String) : List String :=
  if vars.contains v then vars else vars ++ [v]

/-! #### The `eval` fallback of `_parse_logic_to_z3`

`eval(logic_form, {"__builtins__": {}}, safe_ns)` runs an arbitrary
Python expression over the namespace `{And, Or, Not, Implies}` plus the
Z3 variables declared so far.  The embedding models it in two phases
mirroring CPython: *compile* (tokenize and parse to an expression tree)
and *evaluate* (left-to-right, exceptions short-circuiting).  A precise
modelling boundary is kept: every function below distinguishes

  * a faithfully modelled outcome — the evaluation raises (so the
    `except` clause returns `None` and the constraint is dropped), or
    returns a Python value (`PyVal`) — from
  * `outside`: a string (or value combination) beyond the modelled
    fragment, about which the embedding asserts nothing.  The claim
    theorems that quantify over the fallback carry a `modeledRun`
    hypothesis excluding `outside`, so no theorem speaks about inputs
    the model does not cover.

The modelled fragment: `True`/`False`/`None` literals, decimal int and
float literals, single-quoted and double-quoted strings without
escapes, names (declared variables shadow the connectives, as
`**z3_vars` is spread last into `safe_ns`; unknown names raise
`NameError`), parenthesised expressions, tuple displays, `lambda`
expressions (bodies parsed, never evaluated; duplicate parameters are a
`SyntaxError`), varargs calls of the connectives, `~`, `&`, `|`, and
non-chained `==`/`!=`.  Chained comparisons, arithmetic, keyword
operators (`not`/`and`/`or`/`in`/`is`), attribute access,
subscription, and every lexical form outside the token alphabet are
`outside`. -/

inductive PTok where
  | name (s : String)
  | kwTrue
  | kwFalse
  | kwNone
  | kwLambda
  | intLit (n : Nat)
  | floatLit (s : String)
  | strLit (s : String)
  | lpar
  | rpar
  | comma
  | tilde
  | amp
  | pipe
  | colon
  | opEq
  | opNe
deriving DecidableEq

/-- Python keywords other than the literal/lambda ones: any occurrence
is beyond the fragment (most make the source a `SyntaxError`, `not x`
and friends reach Z3 truth-testing — none is modelled). -/
def keywordsOther : List String :=
  ["not", "and", "or", "in", "is", "if", "else", "elif", "for", "while",
   "def", "return", "pass", "break", "continue", "import", "from", "as",
   "with", "try", "except", "finally", "raise", "assert", "del", "global",
   "nonlocal", "yield", "class", "await", "async"]

/-- Scan a string literal body up to the closing quote `q`.  Escapes and
line breaks inside the literal are outside the fragment. -/
def strScan (q : Char) : List Char → Option (List Char × List Char)
  | [] => none
  | d :: ds =>
    if d = q then some ([], ds)
    else if d = '\\' || d = '\n' || d = '\r' then none
    else (strScan q ds).map (fun p => (d :: p.1, p.2))

/-- The tokenizer (CPython lexing restricted to the fragment's token
alphabet; `none` = outside the fragment).  Python rejects `int`
literals with a leading zero and a further nonzero digit
(`SyntaxError`), conservatively mapped to `none` as well. -/
def pyLex : Nat → List Char → Option (List PTok)
  | 0, _ => none
  | _ + 1, [] => some []
  | f + 1, c :: cs =>
    if c = ' ' || c = '\t' || c = '\n' || c = '\r' then pyLex f cs
    else if isDigitCh c then
      let ds := (c :: cs).takeWhile isDigitCh
      let rest := (c :: cs).dropWhile isDigitCh
      match rest with
      | '.' :: rest2 =>
        let fs := rest2.takeWhile isDigitCh
        let rest3 := rest2.dropWhile isDigitCh
        (pyLex f rest3).map (fun ts => .floatLit ⟨ds ++ '.' :: fs⟩ :: ts)
      | _ =>
        if c = '0' && ds.any (fun d => d != '0') then none
        else (pyLex f rest).map (fun ts => .intLit (digitsVal ds) :: ts)
    else if isWordCh c then
      let w : String := ⟨(c :: cs).takeWhile isWordCh⟩
      let rest := (c :: cs).dropWhile isWordCh
      let tok : Option PTok :=
        if w = "True" then some .kwTrue
        else if w = "False" then some .kwFalse
        else if w = "None" then some .kwNone
        else if w = "lambda" then some .kwLambda
        else if keywordsOther.contains w then none
        else some (.name w)
      match tok with
      | none => none
      | some t => (pyLex f rest).map (fun ts => t :: ts)
    else if c = '(' then (pyLex f cs).map (fun ts => .lpar :: ts)
    else if c = ')' then (pyLex f cs).map (fun ts => .rpar :: ts)
    else if c = ',' then (pyLex f cs).map (fun ts => .comma :: ts)
    else if c = '~' then (pyLex f cs).map (fun ts => .tilde :: ts)
    else if c = '&' then (pyLex f cs).map (fun ts => .amp :: ts)
    else if c = '|' then (pyLex f cs).map (fun ts => .pipe :: ts)
    else if c = ':' then (pyLex f cs).map (fun ts => .colon :: ts)
    else if c = '=' then
      match cs with
      | '=' :: cs2 => (pyLex f cs2).map (fun ts => .opEq :: ts)
      | _ => none
    else if c = '!' then
      match cs with
      | '=' :: cs2 => (pyLex f cs2).map (fun ts => .opNe :: ts)
      | _ => none
    else if c = apoCh || c = '"' then
      match strScan c cs with
      | none => none
      | some (content, rest) =>
        (pyLex f rest).map (fun ts => .strLit ⟨content⟩ :: ts)
    else if c = '.' then
      match cs with
      | d :: _ =>
        if isDigitCh d then
          (pyLex f (cs.dropWhile isDigitCh)).map
            (fun ts => .floatLit ⟨'.' :: cs.takeWhile isDigitCh⟩ :: ts)
        else none
      | [] => none
    else none

/-- The expression trees of the fragment (Python AST nodes reachable
through the tokens above). -/
inductive PExpr where
  | name (s : String)
  | litTrue
  | litFalse
  | litNone
  | litInt (n : Nat)
  | litFloat (s : String)
  | litStr (s : String)
  | tup (es : List PExpr)
  | lam (body : PExpr)
  | call (f : PExpr) (args : List PExpr)
  | inv (e : PExpr)
  | band (a b : PExpr)
  | bor (a b : PExpr)
  | cmp (eq : Bool) (a b : PExpr)

/-! Recursive-descent parser over the tokens, one function per
precedence level of the Python grammar (`,` < `lambda` <
comparison (non-chained) < `|` < `&` < unary `~` < call < atom).  Parse
failure is `none` = outside the fragment (it may be a Python
`SyntaxError` or a construct the model does not cover; no theorem
distinguishes the two). -/

mutual

def pyPItem : Nat → List PTok → Option (PExpr × List PTok)
  | 0, _ => none
  | f + 1, toks =>
    match toks with
    | .kwLambda :: rest => pyPLam f [] rest
    | _ => pyPCmp f toks

def pyPLam : Nat → List String → List PTok → Option (PExpr × List PTok)
  | 0, _, _ => none
  | f + 1, seen, toks =>
    match toks with
    | .colon :: rest =>
      match pyPItem f rest with
      | some (body, rest2) => some (.lam body, rest2)
      | none => none
    | .name p :: rest =>
      if seen.contains p then none
      else
        match rest with
        | .comma :: rest2 => pyPLam f (p :: seen) rest2
        | .colon :: rest2 =>
          match pyPItem f rest2 with
          | some (body, rest3) => some (.lam body, rest3)
          | none => none
        | _ => none
    | _ => none

def pyPCmp : Nat → List PTok → Option (PExpr × List PTok)
  | 0, _ => none
  | f + 1, toks =>
    match pyPOr f toks with
    | none => none
    | some (a, rest) =>
      match rest with
      | .opEq :: rest2 =>
        match pyPOr f rest2 with
        | some (b, rest3) =>
          match rest3 with
          | .opEq :: _ => none
          | .opNe :: _ => none
          | _ => some (.cmp true a b, rest3)
        | none => none
      | .opNe :: rest2 =>
        match pyPOr f rest2 with
        | some (b, rest3) =>
          match rest3 with
          | .opEq :: _ => none
          | .opNe :: _ => none
          | _ => some (.cmp false a b, rest3)
        | none => none
      | _ => some (a, rest)

def pyPOr : Nat → List PTok → Option (PExpr × List PTok)
  | 0, _ => none
  | f + 1, toks =>
    match pyPAnd f toks with
    | none => none
    | some (a, rest) => pyPOrRest f a rest

def pyPOrRest : Nat → PExpr → List PTok → Option (PExpr × List PTok)
  | 0, _, _ => none
  | f + 1, a, toks =>
    match toks with
    | .pipe :: rest =>
      match pyPAnd f rest with
      | some (b, rest2) => pyPOrRest f (.bor a b) rest2
      | none => none
    | _ => some (a, toks)

def pyPAnd : Nat → List PTok → Option (PExpr × List PTok)
  | 0, _ => none
  | f + 1, toks =>
    match pyPUnary f toks with
    | none => none
    | some (a, rest) => pyPAndRest f a rest

def pyPAndRest : Nat → PExpr → List PTok → Option (PExpr × List PTok)
  | 0, _, _ => none
  | f + 1, a, toks =>
    match toks with
    | .amp :: rest =>
      match pyPUnary f rest with
      | some (b, rest2) => pyPAndRest f (.band a b) rest2
      | none => none
    | _ => some (a, toks)

def pyPUnary : Nat → List PTok → Option (PExpr × List PTok)
  | 0, _ => none
  | f + 1, toks =>
    match toks with
    | .tilde :: rest =>
      match pyPUnary f rest with
      | some (e, rest2) => some (.inv e, rest2)
      | none => none
    | _ => pyPPost f toks

def pyPPost : Nat → List PTok → Option (PExpr × List PTok)
  | 0, _ => none
  | f + 1, toks =>
    match pyPAtom f toks with
    | some (a, rest) => pyPPostRest f a rest
    | none => none

def pyPPostRest : Nat → PExpr → List PTok → Option (PExpr × List PTok)
  | 0, _, _ => none
  | f + 1, a, toks =>
    match toks with
      | .lpar :: rest =>
        match rest with
        | .rpar :: rest2 => pyPPostRest f (.call a []) rest2
        | _ =>
          match pyPList f rest with
          | some (es, rest2) =>
            match rest2 with
            | .rpar :: rest3 => pyPPostRest f (.call a es) rest3
            | _ => none
          | none => none
      | _ => some (a, toks)

def pyPList : Nat → List PTok → Option (List PExpr × List PTok)
  | 0, _ => none
  | f + 1, toks =>
    match pyPItem f toks with
    | none => none
    | some (e, rest) =>
      match rest with
      | .comma :: rest2 =>
        match pyPList f rest2 with
        | some (es, rest3) => some (e :: es, rest3)
        | none => some ([e], rest2)
      | _ => some ([e], rest)

def pyPAtom : Nat → List PTok → Option (PExpr × List PTok)
  | 0, _ => none
  | f + 1, toks =>
    match toks with
    | .name s :: rest => some (.name s, rest)
    | .kwTrue :: rest => some (.litTrue, rest)
    | .kwFalse :: rest => some (.litFalse, rest)
    | .kwNone :: rest => some (.litNone, rest)
    | .intLit n :: rest => some (.litInt n, rest)
    | .floatLit s :: rest => some (.litFloat s, rest)
    | .strLit s :: rest => some (.litStr s, rest)
    | .lpar :: rest =>
      match rest with
      | .rpar :: rest2 => some (.tup [], rest2)
      | _ =>
        match pyPItem f rest with
        | none => none
        | some (e, rest2) =>
          match rest2 with
          | .rpar :: rest3 => some (e, rest3)
          | .comma :: rest3 =>
            match rest3 with
            | .rpar :: rest4 => some (.tup [e], rest4)
            | _ =>
              match pyPList f rest3 with
              | none => none
              | some (es, rest4) =>
                match rest4 with
                | .rpar :: rest5 => some (.tup (e :: es), rest5)
                | _ => none
          | _ => none
    | _ => none

end

/-- The compile phase of the fallback `eval`: tokenize, parse a
possibly tuple-forming expression list, require all input consumed.
`none` = outside the fragment. -/
def pyCompile (lf : String) : Option PExpr :=
  match pyLex (lf.length + 1) lf.data with
  | none => none
  | some [] => none
  | some toks =>
    match pyPItem ((lf.length + 1) * 8) toks with
    | none => none
    | some (e, rest) =>
      match rest with
      | [] => some e
      | .comma :: rest2 =>
        match rest2 with
        | [] => some (.tup [e])
        | _ =>
          match pyPList ((lf.length + 1) * 8) rest2 with
          | some (es, []) => some (.tup (e :: es))
          | _ => none
      | _ => none

/-- Evaluation outcome of a fallback expression: a raised exception
(caught by `_parse_logic_to_z3`, which then returns `None`), a Python
value, or outside the modelled fragment. -/
inductive EvalRes where
  | raise
  | val (v : PyVal)
  | outside

/-- Left-to-right evaluation of an expression list (a raise
short-circuits before later elements are reached). -/
inductive EvalListRes where
  | raise
  | vals (vs : List PyVal)
  | outside

/-- Z3's coercion of connective arguments: a `BoolRef` stands, a Python
bool becomes `BoolVal`; everything else is not coerced here. -/
def coerceArg : PyVal → Option BExpr
  | .expr e => some e
  | .bool b => some (.val b)
  | _ => none

/-- `~v`: `BoolRef.__invert__` is `Not`; on Python bools/ints `~` is
integer complement; every other operand raises `TypeError`. -/
def invCombine : PyVal → EvalRes
  | .expr a => .val (.expr (.not a))
  | .bool b => .val (.int (if b then -2 else -1))
  | .int n => .val (.int (-n - 1))
  | _ => .raise

def bopExpr : Bool → BExpr → BExpr → BExpr
  | true, a, b => .and a b
  | false, a, b => .or a b

/-- `a & b` / `a | b`: on two `BoolRef`s these are `And`/`Or`
(`BoolRef.__and__`/`__or__`); on two Python bools they are the boolean
bitwise operators.  All other combinations are outside the fragment. -/
def bopCombine (isAnd : Bool) : PyVal → PyVal → EvalRes
  | .expr a, .expr b => .val (.expr (bopExpr isAnd a b))
  | .bool a, .bool b => .val (.bool (if isAnd then a && b else a || b))
  | _, _ => .outside

/-- Python `==` on primitive values (`bool`s compare as ints, `None`
equals only itself).  `none` = combination outside the fragment. -/
def cmpPrim : PyVal → PyVal → Option Bool
  | .bool a, .bool b => some (a == b)
  | .bool a, .int n => some ((if a then (1 : Int) else 0) == n)
  | .int n, .bool a => some (n == (if a then (1 : Int) else 0))
  | .int m, .int n => some (m == n)
  | .str a, .str b => some (a == b)
  | .pynone, .pynone => some true
  | .pynone, .bool _ => some false
  | .pynone, .int _ => some false
  | .pynone, .str _ => some false
  | .bool _, .pynone => some false
  | .int _, .pynone => some false
  | .str _, .pynone => some false
  | .bool _, .str _ => some false
  | .str _, .bool _ => some false
  | .int _, .str _ => some false
  | .str _, .int _ => some false
  | _, _ => none

def cmpExpr : Bool → BExpr → BExpr → BExpr
  | true, a, b => .iff a b
  | false, a, b => .not (.iff a b)

/-- `a == b` / `a != b` (non-chained): with a `BoolRef` on either side
and a `BoolRef`/bool on the other, Z3's `__eq__`/`__ne__` build the
boolean biconditional (resp. its negation) with bools coerced to
`BoolVal`; on primitive pairs Python compares values.  Anything else
(floats, tuples, functions, `BoolRef` vs non-boolean) is outside. -/
def cmpPrimRes (eq : Bool) (va vb : PyVal) : EvalRes :=
  match cmpPrim va vb with
  | some r => .val (.bool (r == eq))
  | none => .outside

def cmpCombine (eq : Bool) : PyVal → PyVal → EvalRes
  | .expr a, .expr b => .val (.expr (cmpExpr eq a b))
  | .expr a, .bool b => .val (.expr (cmpExpr eq a (.val b)))
  | .bool a, .expr b => .val (.expr (cmpExpr eq (.val a) b))
  | va, vb => cmpPrimRes eq va vb

/-- Calling a namespace function: `And`/`Or` are varargs over
`BoolRef`s and bools (one or more arguments; the empty call is outside
the fragment), `Not` unary, `Implies` binary; other argument shapes or
arities, and calls of `lambda` closures (which would evaluate the
body), are outside. -/
def callCombine : FuncKind → List PyVal → EvalRes
  | .fAnd, vs =>
    match vs.mapM coerceArg with
    | some (b :: bs) => .val (.expr (bs.foldl BExpr.and b))
    | some [] => .outside
    | none => .outside
  | .fOr, vs =>
    match vs.mapM coerceArg with
    | some (b :: bs) => .val (.expr (bs.foldl BExpr.or b))
    | some [] => .outside
    | none => .outside
  | .fNot, vs =>
    match vs with
    | [v] =>
      match coerceArg v with
      | some b => .val (.expr (.not b))
      | none => .outside
    | _ => .outside
  | .fImplies, vs =>
    match vs with
    | [va, vb] =>
      match coerceArg va, coerceArg vb with
      | some a, some b => .val (.expr (.implies a b))
      | _, _ => .outside
    | _ => .outside
  | .fLam, _ => .outside

mutual

/-- The evaluate phase.  Name lookup follows `safe_ns` construction
(`**z3_vars` is spread after the connectives, so a variable named
`And` shadows the function); unknown names raise `NameError`.  Calling
a non-function value always ends in an exception in the source (the
arguments are evaluated first, but every continuation raises — at the
latest `TypeError: not callable`), modelled as an immediate raise. -/
def pyEvalE : Nat → List String → PExpr → EvalRes
  | 0, _, _ => .outside
  | f + 1, vars, e =>
    match e with
    | .name s =>
      if vars.contains s then .val (.expr (.var s))
      else if s = "And" then .val (.func .fAnd)
      else if s = "Or" then .val (.func .fOr)
      else if s = "Not" then .val (.func .fNot)
      else if s = "Implies" then .val (.func .fImplies)
      else .raise
    | .litTrue => .val (.bool true)
    | .litFalse => .val (.bool false)
    | .litNone => .val .pynone
    | .litInt n => .val (.int n)
    | .litFloat s => .val (.float s)
    | .litStr s => .val (.str s)
    | .lam _ => .val (.func .fLam)
    | .tup es =>
      match pyEvalList f vars es with
      | .raise => .raise
      | .outside => .outside
      | .vals vs => .val (.tuple vs)
    | .inv e1 =>
      match pyEvalE f vars e1 with
      | .raise => .raise
      | .outside => .outside
      | .val v => invCombine v
    | .band a b =>
      match pyEvalE f vars a with
      | .raise => .raise
      | .outside => .outside
      | .val va =>
        match pyEvalE f vars b with
        | .raise => .raise
        | .outside => .outside
        | .val vb => bopCombine true va vb
    | .bor a b =>
      match pyEvalE f vars a with
      | .raise => .raise
      | .outside => .outside
      | .val va =>
        match pyEvalE f vars b with
        | .raise => .raise
        | .outside => .outside
        | .val vb => bopCombine false va vb
    | .cmp eq a b =>
      match pyEvalE f vars a with
      | .raise => .raise
      | .outside => .outside
      | .val va =>
        match pyEvalE f vars b with
        | .raise => .raise
        | .outside => .outside
        | .val vb => cmpCombine eq va vb
    | .call fe args =>
      match pyEvalE f vars fe with
      | .raise => .raise
      | .outside => .outside
      | .val (.func k) =>
        match pyEvalList f vars args with
        | .raise => .raise
        | .outside => .outside
        | .vals vs => callCombine k vs
      | .val (.expr _) => .outside
      | .val _ => .raise

def pyEvalList : Nat → List String → List PExpr → EvalListRes
  | 0, _, _ => .outside
  | _ + 1, _, [] => .vals []
  | f + 1, vars, e :: es =>
    match pyEvalE f vars e with
    | .raise => .raise
    | .outside => .outside
    | .val v =>
      match pyEvalList f vars es with
      | .raise => .raise
      | .outside => .outside
      | .vals vs => .vals (v :: vs)

end

/-- The complete fallback outcome for a logic form: compile, then
evaluate.  The fuel bounds strictly dominate the token count and tree
depth of any in-fragment input. -/
def pyEvalRes (lf : String) (vars : List String) : EvalRes :=
  match pyCompile lf with
  | none => .outside
  | some ast => pyEvalE (lf.length + 2) vars ast

/-- The fallback as seen by `_parse_logic_to_z3`: a raised exception is
caught (`None`); a value is returned.  Outside the fragment the model
defaults to `None`; the claim theorems never rely on that default —
they carry `modeledRun` hypotheses. -/
def pyEvalFallback (lf : String) (vars : List String) : Option PyVal :=
  match pyEvalRes lf vars with
  | .val v => some v
  | _ => none

/-- `Z3Validator._parse_logic_to_z3`, threading the lazily-growing
variable dict.  `none` models the `return None` paths (empty logic form
or a caught exception); `some pv` models a returned Python value. -/
def parseLogicToZ3 (lf : String) (vars : List String) :
    Option PyVal × List String :=
  if lf = "" then (none, vars)
  else
    match reMatchCmp "==".data lf with
    | some (v, b) =>
      (some (.expr (if b then .var v else .not (.var v))), addVar v vars)
    | none =>
    match reMatchCmp "!=".data lf with
    | some (v, b) =>
      (some (.expr (if b then .not (.var v) else .var v)), addVar v vars)
    | none =>
    match reMatchCall1 "Not" lf with
    | some v => (some (.expr (.not (.var v))), addVar v vars)
    | none =>
    match reMatchCall2 "And" lf with
    | some (a, b) =>
      (some (.expr (.and (.var a) (.var b))), addVar b (addVar a vars))
    | none =>
    match reMatchCall2 "Or" lf with
    | some (a, b) =>
      (some (.expr (.or (.var a) (.var b))), addVar b (addVar a vars))
    | none =>
    match reMatchCall2 "Implies" lf with
    | some (a, b) =>
      (some (.expr (.implies (.var a) (.var b))), addVar b (addVar a vars))
    | none =>
    match pyEvalFallback lf vars with
    | some v => (some v, vars)
    | none => (none, vars)

inductive SolverResult where
  | sat (m : String → Bool)
  | unsat (core : List String)
  | unknown

def ClausesSat (m : String → Bool) (cs : List (String × BExpr)) : Prop :=
  ∀ p ∈ cs, evalB m p.2 = true

def goodSolver (check : List (String × BExpr) → SolverResult) : Prop :=
  ∀ cs,
    (∀ m, check cs = .sat m → ClausesSat m cs) ∧
    (∀ core, check cs = .unsat core →
      (∀ i ∈ core, i ∈ cs.map Prod.fst) ∧
      ¬ ∃ m, ClausesSat m (cs.filter (fun p => core.contains p.1))) ∧
    check cs ≠ .unknown

/-- All variables of a clause list (an internal helper of `bruteCheck`,
not part of the source embedding). -/
def collectVars (cs : List (String × BExpr)) : List String :=
  cs.flatMap (fun p => exprVars p.2)

/-- All boolean assignments over a variable list. -/
def assignmentsOver : List String → List (String → Bool)
  | [] => [fun _ => false]
  | v :: vs =>
    (assignmentsOver vs).flatMap (fun m =>
      [fun x => if x = v then true else m x,
       fun x => if x = v then false else m x])

/-- An executable, provably `goodSolver` decision procedure used to
witness the solver-parametric theorems. -/
def bruteCheck (cs : List (String × BExpr)) : SolverResult :=
  match (assignmentsOver (collectVars cs)).find?
      (fun m => cs.all (fun p => evalB m p.2)) with
  | some m => .sat m
  | none => .unsat (cs.map Prod.fst)

theorem evalB_congr {m m' : String → Bool} :
    ∀ e : BExpr, (∀ v ∈ exprVars e, m v = m' v) → evalB m e = evalB m' e := by
  intro e
  induction e with
  | var v => intro h; exact h v (by simp [exprVars])
  | val b => intro _; rfl
  | not e ih => intro h; simp only [evalB]; rw [ih h]
  | and a b iha ihb =>
    intro h
    simp only [evalB]
    rw [iha fun v hv => h v (by simp [exprVars, hv]),
        ihb fun v hv => h v (by simp [exprVars, hv])]
  | or a b iha ihb =>
    intro h
    simp only [evalB]
    rw [iha fun v hv => h v (by simp [exprVars, hv]),
        ihb fun v hv => h v (by simp [exprVars, hv])]
  | iff a b iha ihb =>
    intro h
    simp only [evalB]
    rw [iha fun v hv => h v (by simp [exprVars, hv]),
        ihb fun v hv => h v (by simp [exprVars, hv])]
  | implies a b iha ihb =>
    intro h
    simp only [evalB]
    rw [iha fun v hv => h v (by simp [exprVars, hv]),
        ihb fun v hv => h v (by simp [exprVars, hv])]

theorem assignmentsOver_complete (m' : String → Bool) :
    ∀ vs : List String, ∃ m ∈ assignmentsOver vs, ∀ v ∈ vs, m v = m' v := by
  intro vs
  induction vs with
  | nil => exact ⟨fun _ => false, by simp [assignmentsOver], by simp⟩
  | cons v vs ih =>
    obtain ⟨m, hm, hagree⟩ := ih
    by_cases hv : m' v = true
    · refine ⟨fun x => if x = v then true else m x, ?_, ?_⟩
      · simp only [assignmentsOver, List.mem_flatMap]
        exact ⟨m, hm, by simp⟩
      · intro u hu
        by_cases huv : u = v
        · simp [huv, hv]
        · simp only [if_neg huv]
          exact hagree u (by rcases List.mem_cons.mp hu with h | h; exact absurd h huv; exact h)
    · refine ⟨fun x => if x = v then false else m x, ?_, ?_⟩
      · simp only [assignmentsOver, List.mem_flatMap]
        exact ⟨m, hm, by simp⟩
      · intro u hu
        by_cases huv : u = v
        · simp only [huv, if_pos rfl]
          exact (Bool.not_eq_true _).mp hv |>.symm
        · simp only [if_neg huv]
          exact hagree u (by rcases List.mem_cons.mp hu with h | h; exact absurd h huv; exact h)

theorem bruteCheck_good : goodSolver bruteCheck := by
  intro cs
  refine ⟨?_, ?_, ?_⟩
  · intro m hm
    unfold bruteCheck at hm
    rcases hfind : (assignmentsOver (collectVars cs)).find?
        (fun m => cs.all (fun p => evalB m p.2)) with _ | m0
    · rw [hfind] at hm; exact absurd hm (by simp)
    · rw [hfind] at hm
      have hm0 : m = m0 := by cases hm; rfl
      subst hm0
      have := List.find?_some hfind
      intro p hp
      exact List.all_eq_true.mp this p hp
  · intro core hcore
    unfold bruteCheck at hcore
    rcases hfind : (assignmentsOver (collectVars cs)).find?
        (fun m => cs.all (fun p => evalB m p.2)) with _ | m0
    · rw [hfind] at hcore
      have hcoreEq : core = cs.map Prod.fst := by cases hcore; rfl
      subst hcoreEq
      constructor
      · intro i hi; exact hi
      · rintro ⟨m, hsat⟩
        -- every clause is kept by the filter, so `m` satisfies all of `cs`
        have hfilter : cs.filter (fun p => (cs.map Prod.fst).contains p.1) = cs := by
          apply List.filter_eq_self.mpr
          intro p hp
          exact List.elem_eq_true_of_mem (List.mem_map.mpr ⟨p, hp, rfl⟩)
        rw [hfilter] at hsat
        obtain ⟨m0, hm0mem, hagree⟩ := assignmentsOver_complete m (collectVars cs)
        have : cs.all (fun p => evalB m0 p.2) = true := by
          apply List.all_eq_true.mpr
          intro p hp
          have : evalB m0 p.2 = evalB m p.2 := by
            apply evalB_congr
            intro v hv
            exact hagree v (by simp only [collectVars, List.mem_flatMap]; exact ⟨p, hp, hv⟩)
          rw [this]
          exact hsat p hp
        have := List.find?_eq_none.mp hfind m0 hm0mem
        simp_all
    · rw [hfind] at hcore; exact absurd hcore (by simp)
  · unfold bruteCheck
    rcases hfind : (assignmentsOver (collectVars cs)).find?
        (fun m => cs.all (fun p => evalB m p.2)) with _ | m0 <;> simp

/-! ### `z3_validator.py` — results and conflict explanation -/

/-- `ConflictExplanation` dataclass (`to_dict` is the lossless asdict
serialization; we keep the dataclass itself). -/
structure ConflictExplanation where
  constraint_a : Constraint
  constraint_b : Constraint
  conflict_type : String
  explanation : String
  authority_resolution : Option String := none
  resolution_available : Bool := false
deriving DecidableEq

/-- `ValidationResult` dataclass (`model` is the `var_values` dict in
insertion order). -/
structure ValidationResult where
  satisfiable : Bool
  status : String
  model : Option (List (String × Bool)) := none
  unsat_core : Option (List String) := none
  explanation : String := ""
  conflicts : Option (List ConflictExplanation) := none
deriving DecidableEq

/-- The mutable `Z3Validator` instance state (`constraint_db` dict and
the owned `AuthorityRanker`). -/
structure Z3State where
  constraint_db : List (String × Constraint) := []
  ranker : Ranker := {}
deriving DecidableEq

/-- The source dict built from a `Provenance` in `_explain_pair_conflict`.
`None`-valued `court`/`doc_type` entries are modelled as `""` (the only
inputs exercised by the claims carry strings there). -/
def sourceOfProv (p : Provenance) : Source :=
  { doc_title := p.doc_title
    court := p.court.getD ""
    quote := p.quote
    doc_type := p.doc_type.getD "" }

/-- The multi-line explanation f-string of `_explain_pair_conflict`. -/
def pairExplanation (c_a c_b : Constraint) : String :=
  "Conflict between:\n1. \"" ++ c_a.natural_language ++ "\" (from " ++
  (match c_a.provenance with | some p => p.doc_title | none => "Unknown") ++
  ")\n2. \"" ++ c_b.natural_language ++ "\" (from " ++
  (match c_b.provenance with | some p => p.doc_title | none => "Unknown") ++
  ")\n\nThese statements cannot both be true simultaneously."

/-- `Z3Validator._explain_pair_conflict` (always returns an
explanation; the authority resolution is attempted only when *both*
constraints have a provenance). -/
def explainPairConflict (r : Ranker) (c_a c_b : Constraint) :
    ConflictExplanation × Ranker :=
  let ct :=
    if c_a.constraint_type = .assertion ∧ c_b.constraint_type = .negation then
      "direct_contradiction"
    else if c_a.constraint_type = .negation ∧ c_b.constraint_type = .assertion then
      "direct_contradiction"
    else if c_a.constraint_type = .temporal ∨ c_b.constraint_type = .temporal then
      "temporal_conflict"
    else "logical_impossibility"
  match c_a.provenance, c_b.provenance with
  | some pa, some pb =>
    let (auth_a, r1) := detectAuthority r (sourceOfProv pa)
    let (auth_b, r2) := detectAuthority r1 (sourceOfProv pb)
    if auth_a.level ≠ auth_b.level then
      let winnerTitle := if auth_a.level < auth_b.level then pa.doc_title else pb.doc_title
      let loserTitle := if auth_a.level < auth_b.level then pb.doc_title else pa.doc_title
      let winner_auth := if auth_a.level < auth_b.level then auth_a else auth_b
      let loser_auth := if auth_a.level < auth_b.level then auth_b else auth_a
      ({ constraint_a := c_a
         constraint_b := c_b
         conflict_type := ct
         explanation := pairExplanation c_a c_b
         authority_resolution := some (levelName winner_auth.level ++ " (" ++
           winnerTitle ++ ") overrides " ++ levelName loser_auth.level ++ " (" ++
           loserTitle ++ ")")
         resolution_available := true }, r2)
    else
      ({ constraint_a := c_a
         constraint_b := c_b
         conflict_type := ct
         explanation := pairExplanation c_a c_b
         authority_resolution := none
         resolution_available := false }, r2)
  | _, _ =>
    ({ constraint_a := c_a
       constraint_b := c_b
       conflict_type := ct
       explanation := pairExplanation c_a c_b
       authority_resolution := none
       resolution_available := false }, r)

/-- Inner loop of the pairwise explanation (`for j in range(i+1, n)`). -/
def pairLoopInner (r : Ranker) (c : Constraint) :
    List Constraint → List ConflictExplanation × Ranker
  | [] => ([], r)
  | c2 :: rest =>
    let (e, r1) := explainPairConflict r c c2
    let (es, r2) := pairLoopInner r1 c rest
    (e :: es, r2)

/-- Outer loop (`for i in range(n)`). -/
def pairLoop (r : Ranker) : List Constraint → List ConflictExplanation × Ranker
  | [] => ([], r)
  | c :: rest =>
    let (es1, r1) := pairLoopInner r c rest
    let (es2, r2) := pairLoop r1 rest
    (es1 ++ es2, r2)

/-- `Z3Validator._explain_conflicts`: core ids absent from the
constraint db are skipped; two or more resolvable ids yield all
unordered pairs, exactly one yields a self-contradiction explanation. -/
def explainConflicts (db : List (String × Constraint)) (r : Ranker)
    (core_ids : List String) : List ConflictExplanation × Ranker :=
  let core_constraints := core_ids.filterMap (fun cid => db.lookup cid)
  if core_constraints.length ≥ 2 then pairLoop r core_constraints
  else
    match core_constraints with
    | [c] =>
      ([{ constraint_a := c
          constraint_b := c
          conflict_type := "self_contradiction"
          explanation := "Constraint \"" ++ c.natural_language ++
            "\" is self-contradictory"
          resolution_available := false }], r)
    | _ => ([], r)

/-! ### `Z3Validator.validate_consistency` -/

/-- The hard-constraint filter (`include_soft or c.is_hard`). -/
def activeOf (constraints : List Constraint) (include_soft : Bool) : List Constraint :=
  constraints.filter (fun c => include_soft || c.is_hard)

/-- The up-front variable declaration pass (`Bool(var_name)` per name in
each active constraint's `variables`, dict insertion order). -/
def initialVars (active : List Constraint) : List String :=
  active.foldl (fun vs c => c.variables'.foldl (fun a v => addVar v a) vs) []

/-- The parse-and-assert loop.  A parse returning `None` skips the
constraint; a Z3 expression is asserted with the constraint id as
tracking label; any other Python value makes `assert_and_track` raise
`Z3Exception` out of `validate_consistency` (the loop stops there). -/
def buildAsserts : List Constraint → List String → List (String × BExpr) →
    Except String (List (String × BExpr) × List String)
  | [], vars, acc => .ok (acc, vars)
  | c :: rest, vars, acc =>
    match parseLogicToZ3 c.logic_form vars with
    | (none, vars') => buildAsserts rest vars' acc
    | (some (.expr e), vars') => buildAsserts rest vars' (acc ++ [(c.id, e)])
    | (some _, _) => .error "Z3Exception: Boolean expression expected"

/-- `Z3Validator.validate_consistency`, parameterized by the solver.
The `Except` layer carries the uncaught `Z3Exception` described above;
every other path returns a `ValidationResult`. -/
def validateConsistency (check : List (String × BExpr) → SolverResult)
    (st : Z3State) (constraints : List Constraint) (include_soft : Bool) :
    Except String ValidationResult × Z3State :=
  if constraints.isEmpty then
    (.ok { satisfiable := true, status := "sat",
           explanation := "No constraints to validate" }, st)
  else
    let active := activeOf constraints include_soft
    if active.isEmpty then
      (.ok { satisfiable := true, status := "sat",
             explanation := "No hard constraints to validate" }, st)
    else
      let db := active.foldl (fun d c => pyDictInsert c.id c d) st.constraint_db
      match buildAsserts active (initialVars active) [] with
      | .error e => (.error e, { st with constraint_db := db })
      | .ok (tracked, z3_vars) =>
        match check tracked with
        | .sat m =>
          (.ok { satisfiable := true
                 status := "sat"
                 model := some (z3_vars.map (fun v => (v, m v)))
                 explanation := "All constraints are logically consistent" },
           { st with constraint_db := db })
        | .unsat core =>
          let (confls, r') := explainConflicts db st.ranker core
          (.ok { satisfiable := false
                 status := "unsat"
                 unsat_core := some core
                 conflicts := some confls
                 explanation := "Found " ++ natStr core.length ++
                   " conflicting constraints" },
           { constraint_db := db, ranker := r' })
        | .unknown =>
          (.ok { satisfiable := false
                 status := "unknown"
                 explanation :=
                   "Z3 could not determine satisfiability (timeout or complexity)" },
           { st with constraint_db := db })

/-! ## Shared helper lemmas -/

theorem lookup_append_last {α : Type} (l : List (String × α)) (k : String) (v : α)
    (h : l.lookup k = none) : (l ++ [(k, v)]).lookup k = some v := by
  induction l with
  | nil => simp [List.lookup]
  | cons p ps ih =>
    obtain ⟨pk, pv⟩ := p
    simp only [List.lookup, List.cons_append] at *
    cases hk : k == pk with
    | true => rw [hk] at h; simp at h
    | false => rw [hk] at h; exact ih h

/-- After any `detect_authority` call the cache maps the call's key to
the returned info. -/
theorem detectAuthority_cached (r : Ranker) (s : Source) :
    ((detectAuthority r s).2).court_cache.lookup
      (strLower s.doc_title ++ ":" ++ strLower s.court) =
      some (detectAuthority r s).1 := by
  unfold detectAuthority
  cases h : r.court_cache.lookup (strLower s.doc_title ++ ":" ++ strLower s.court) with
  | some info => simp [h]
  | none => simp [h, lookup_append_last]

/-! ## Claim theorems -/

/-- Claim C1 (code bug): the claim states that a source whose `court`
field matches a circuit-court regex (such as `9th circuit`) and no
Supreme Court pattern is classified `CIRCUIT_COURT` (ordinal 2).  In
the code, `STATE_SUPREME` is an `IntEnum` alias of `CIRCUIT_COURT`, so
its entry in the `COURT_PATTERNS` dict literal *overwrites* the
circuit-court pattern list; the circuit regexes are unreachable and
`detect_authority({'court': '9th circuit'})` falls through every
pattern and the `doc_type` heuristics to the `DOCUMENT_EVIDENCE`
default (ordinal 7). -/
theorem claim_C1_circuit_detection :
    reTest patCircuit1 (strLower "9th circuit").data = true ∧
    supremePats.all (fun p => !reTest p (strLower "9th circuit").data) = true ∧
    COURT_PATTERNS.lookup CIRCUIT_COURT = some stateSupremePats ∧
    (detectAuthority {} { court := "9th circuit" }).1.level = DOCUMENT_EVIDENCE ∧
    DOCUMENT_EVIDENCE ≠ CIRCUIT_COURT :=
  ⟨by decide, by decide, by decide, by decide, by decide⟩

/-- Claim C8: two `detect_authority` calls on the same ranker whose
sources agree case-insensitively on `doc_title` and `court` (whatever
their `quote`/`doc_type`) return the same `AuthorityInfo` — the second
is a cache hit on the key `f"{doc_title}:{court}"`. -/
theorem claim_C8_cache_idempotent (r : Ranker) (s1 s2 : Source)
    (ht : strLower s1.doc_title = strLower s2.doc_title)
    (hc : strLower s1.court = strLower s2.court) :
    (detectAuthority (detectAuthority r s1).2 s2).1 = (detectAuthority r s1).1 := by
  have h1 := detectAuthority_cached r s1
  rw [ht, hc] at h1
  generalize hp : detectAuthority r s1 = p at *
  obtain ⟨info, r1⟩ := p
  simp only at h1 ⊢
  unfold detectAuthority
  simp [h1]

def c8src1 : Source :=
  { doc_title := "Roe v. Wade", court := "Supreme Court", quote := "first quote" }

def c8src2 : Source :=
  { doc_title := "roe v. wade", court := "SUPREME COURT",
    quote := "a different quote", doc_type := "email" }

theorem claim_C8_witness :
    strLower c8src1.doc_title = strLower c8src2.doc_title ∧
    strLower c8src1.court = strLower c8src2.court ∧
    (detectAuthority (detectAuthority {} c8src1).2 c8src2).1 =
      (detectAuthority {} c8src1).1 :=
  ⟨by decide, by decide, claim_C8_cache_idempotent {} c8src1 c8src2 (by decide) (by decide)⟩

/-- Claim C10: `_explain_pair_conflict` attempts an authority
resolution only when *both* constraints carry a provenance; if either
is missing, `authority_resolution` stays `None` and
`resolution_available` stays `False`. -/
theorem claim_C10_no_provenance_no_resolution (r : Ranker) (c_a c_b : Constraint)
    (h : c_a.provenance = none ∨ c_b.provenance = none) :
    (explainPairConflict r c_a c_b).1.authority_resolution = none ∧
    (explainPairConflict r c_a c_b).1.resolution_available = false := by
  rcases h with h | h
  · cases hb : c_b.provenance <;> simp [explainPairConflict, h, hb]
  · cases ha : c_a.provenance <;> simp [explainPairConflict, h, ha]

def c10a : Constraint :=
  { id := "a", constraint_type := .assertion, subject := "s", provenance := none }

def c10b : Constraint :=
  { id := "b", constraint_type := .negation, subject := "t",
    provenance := some { doc_id := "d", doc_title := "US Supreme Court opinion",
                         court := some "supreme court of the united states" } }

theorem claim_C10_witness :
    (c10a.provenance = none ∨ c10b.provenance = none) ∧
    (explainPairConflict {} c10a c10b).1.authority_resolution = none ∧
    (explainPairConflict {} c10a c10b).1.resolution_available = false :=
  ⟨Or.inl rfl, claim_C10_no_provenance_no_resolution {} c10a c10b (Or.inl rfl)⟩

/-- Claim C6: when exactly one id of the core resolves in the
constraint db, `_explain_conflicts` returns the single
self-contradiction explanation with both sides equal to that
constraint. -/
theorem claim_C6_singleton_core (db : List (String × Constraint)) (r : Ranker)
    (core_ids : List String) (c : Constraint)
    (h : core_ids.filterMap (fun cid => db.lookup cid) = [c]) :
    (explainConflicts db r core_ids).1 =
      [{ constraint_a := c
         constraint_b := c
         conflict_type := "self_contradiction"
         explanation := "Constraint \"" ++ c.natural_language ++
           "\" is self-contradictory"
         resolution_available := false }] := by
  unfold explainConflicts
  rw [h]
  simp

def c6c : Constraint :=
  { id := "c1", constraint_type := .exclusion, subject := "p and not p",
    natural_language := "P and not P" }

theorem claim_C6_witness :
    (["c1", "missing"].filterMap
        (fun cid => [("c1", c6c)].lookup cid) = [c6c]) ∧
    (explainConflicts [("c1", c6c)] {} ["c1", "missing"]).1 =
      [{ constraint_a := c6c
         constraint_b := c6c
         conflict_type := "self_contradiction"
         explanation := "Constraint \"" ++ c6c.natural_language ++
           "\" is self-contradictory"
         resolution_available := false }] :=
  ⟨rfl, claim_C6_singleton_core [("c1", c6c)] {} ["c1", "missing"] c6c rfl⟩

/-! ### Deduplication lemmas (claim C7) -/

theorem dedupGo_spec (cs : List Constraint) :
    ∀ (seen : List String), ∀ c ∈ dedupGo seen cs,
      seen.contains c.logic_form = false ∧
      cs.find? (fun x => x.logic_form == c.logic_form) = some c := by
  induction cs with
  | nil => intro seen c hc; simp [dedupGo] at hc
  | cons h t ih =>
    intro seen c hc
    simp only [dedupGo] at hc
    by_cases hseen : seen.contains h.logic_form
    · rw [if_pos hseen] at hc
      obtain ⟨hnot, hfind⟩ := ih seen c hc
      refine ⟨hnot, ?_⟩
      have hne : (h.logic_form == c.logic_form) = false := by
        cases hbeq : h.logic_form == c.logic_form with
        | false => rfl
        | true =>
          have heq : h.logic_form = c.logic_form := eq_of_beq hbeq
          rw [heq, hnot] at hseen
          exact absurd hseen Bool.false_ne_true
      rw [List.find?_cons, hne]
      exact hfind
    · rw [if_neg hseen] at hc
      rcases List.mem_cons.mp hc with rfl | hc'
      · refine ⟨by simpa using hseen, ?_⟩
        rw [List.find?_cons]
        simp
      · obtain ⟨hnot, hfind⟩ := ih _ c hc'
        have hne : c.logic_form ≠ h.logic_form ∧ seen.contains c.logic_form = false := by
          constructor
          · intro heq
            rw [heq] at hnot
            simp at hnot
          · simp only [List.contains_cons] at hnot
            simp only [Bool.or_eq_false_iff] at hnot
            exact hnot.2
        refine ⟨hne.2, ?_⟩
        have : (h.logic_form == c.logic_form) = false := by
          cases hbeq : h.logic_form == c.logic_form with
          | false => rfl
          | true => exact absurd (eq_of_beq hbeq).symm hne.1
        rw [List.find?_cons, this]
        exact hfind

theorem dedupGo_pairwise (cs : List Constraint) :
    ∀ seen : List String,
      (dedupGo seen cs).Pairwise (fun a b => a.logic_form ≠ b.logic_form) := by
  induction cs with
  | nil => intro seen; simp [dedupGo]
  | cons h t ih =>
    intro seen
    simp only [dedupGo]
    by_cases hseen : seen.contains h.logic_form
    · rw [if_pos hseen]; exact ih seen
    · rw [if_neg hseen]
      refine List.Pairwise.cons ?_ (ih _)
      intro c hc heq
      obtain ⟨hnot, _⟩ := dedupGo_spec t _ c hc
      rw [← heq] at hnot
      simp at hnot

theorem dedupGo_covers (cs : List Constraint) :
    ∀ seen : List String, ∀ c ∈ cs,
      seen.contains c.logic_form = true ∨
      ∃ c' ∈ dedupGo seen cs, c'.logic_form = c.logic_form := by
  induction cs with
  | nil => intro seen c hc; simp at hc
  | cons h t ih =>
    intro seen c hc
    simp only [dedupGo]
    by_cases hseen : seen.contains h.logic_form
    · rw [if_pos hseen]
      rcases List.mem_cons.mp hc with rfl | hc'
      · exact Or.inl hseen
      · exact ih seen c hc'
    · rw [if_neg hseen]
      rcases List.mem_cons.mp hc with rfl | hc'
      · exact Or.inr ⟨_, List.mem_cons_self _ _, rfl⟩
      · rcases ih (h.logic_form :: seen) c hc' with hmem | ⟨c', hc'', heq⟩
        · simp only [List.contains_cons, Bool.or_eq_true] at hmem
          rcases hmem with heq | hmem
          · exact Or.inr ⟨h, List.mem_cons_self _ _, (eq_of_beq heq).symm⟩
          · exact Or.inl hmem
        · exact Or.inr ⟨c', List.mem_cons_of_mem _ hc'', heq⟩

theorem extractConstraints_fst (perF : Finding → Nat → List Constraint × Nat)
    (fs : List Finding) (k : Nat) :
    (extractConstraints perF fs k).1 = dedupByLogicForm (extractRaw perF fs k).1 := by
  rcases h : extractRaw perF fs k with ⟨cs, k'⟩
  simp [extractConstraints, h]

/-- Claim C7: the batch result of `extract_constraints` has pairwise
distinct `logic_form`s; each surviving constraint is the *first*
constraint with its logic form in the production order of the findings
loop, and every produced logic form is represented by a survivor. -/
theorem claim_C7_dedup_first_wins (perF : Finding → Nat → List Constraint × Nat)
    (fs : List Finding) (k : Nat) :
    ((extractConstraints perF fs k).1.Pairwise
      (fun a b => a.logic_form ≠ b.logic_form)) ∧
    (∀ c ∈ (extractConstraints perF fs k).1,
      (extractRaw perF fs k).1.find?
        (fun x => x.logic_form == c.logic_form) = some c) ∧
    (∀ c ∈ (extractRaw perF fs k).1,
      ∃ c' ∈ (extractConstraints perF fs k).1,
        c'.logic_form = c.logic_form) := by
  rw [extractConstraints_fst]
  refine ⟨dedupGo_pairwise _ [], ?_, ?_⟩
  · intro c hc
    exact (dedupGo_spec _ [] c hc).2
  · intro c hc
    rcases dedupGo_covers _ [] c hc with hmem | hex
    · simp at hmem
    · exact hex

/-- A fixed single-finding extractor standing for an LLM reply that
produces the same logic form for every finding. -/
def c7perF : Finding → Nat → List Constraint × Nat :=
  fun _ k =>
    ([{ id := "c_" ++ natStr (k + 1), constraint_type := .assertion,
        subject := "s", logic_form := "a == True" }], k + 1)

def c7f : Finding := { quote := "q" }

theorem claim_C7_witness :
    ((extractConstraints c7perF [c7f, c7f] 0).1.Pairwise
      (fun a b => a.logic_form ≠ b.logic_form)) ∧
    (∀ c ∈ (extractConstraints c7perF [c7f, c7f] 0).1,
      (extractRaw c7perF [c7f, c7f] 0).1.find?
        (fun x => x.logic_form == c.logic_form) = some c) ∧
    (∀ c ∈ (extractRaw c7perF [c7f, c7f] 0).1,
      ∃ c' ∈ (extractConstraints c7perF [c7f, c7f] 0).1,
        c'.logic_form = c.logic_form) :=
  claim_C7_dedup_first_wins c7perF [c7f, c7f] 0

/-! ### Claim C4: parse failures are dropped — except non-expression
fallback values -/

/-- Reduction of `validate_consistency` to the solver call, for a
non-empty active set whose parse loop completed. -/
theorem validateConsistency_eq (check : List (String × BExpr) → SolverResult)
    (st : Z3State) (cs : List Constraint) (soft : Bool)
    (tracked : List (String × BExpr)) (vf : List String)
    (hne : cs.isEmpty = false) (hact : (activeOf cs soft).isEmpty = false)
    (hb : buildAsserts (activeOf cs soft) (initialVars (activeOf cs soft)) [] =
      .ok (tracked, vf)) :
    validateConsistency check st cs soft =
      (let db := (activeOf cs soft).foldl
        (fun d c => pyDictInsert c.id c d) st.constraint_db
      match check tracked with
      | .sat m =>
        (.ok { satisfiable := true
               status := "sat"
               model := some (vf.map (fun v => (v, m v)))
               explanation := "All constraints are logically consistent" },
         { st with constraint_db := db })
      | .unsat core =>
        let (confls, r') := explainConflicts db st.ranker core
        (.ok { satisfiable := false
               status := "unsat"
               unsat_core := some core
               conflicts := some confls
               explanation := "Found " ++ natStr core.length ++
                 " conflicting constraints" },
         { constraint_db := db, ranker := r' })
      | .unknown =>
        (.ok { satisfiable := false
               status := "unknown"
               explanation :=
                 "Z3 could not determine satisfiability (timeout or complexity)" },
         { st with constraint_db := db })) := by
  unfold validateConsistency
  rw [if_neg (by simp [hne]), if_neg (by simp [hact]), hb]

/-! ### Claim C2 -/

def c2c1 : Constraint :=
  { id := "c1", constraint_type := .assertion, subject := "X",
    variables' := ["X"], logic_form := "X == True" }

def c2c2 : Constraint :=
  { id := "c2", constraint_type := .negation, subject := "X",
    variables' := ["X"], logic_form := "X == False" }

/-- Claim C2: the hard constraints `X == True` (id `c1`) and
`X == False` (id `c2`) validate as unsatisfiable with status `unsat`,
and the reported core consists of exactly the ids `c1` and `c2` (any
solver fulfilling the Z3 contract must include both, and may name
nothing else). -/
theorem claim_C2_direct_contradiction
    (check : List (String × BExpr) → SolverResult) (hgood : goodSolver check)
    (st : Z3State) :
    ∃ res : ValidationResult,
      (validateConsistency check st [c2c1, c2c2] false).1 = .ok res ∧
      res.satisfiable = false ∧
      res.status = "unsat" ∧
      ∃ core, res.unsat_core = some core ∧
        "c1" ∈ core ∧ "c2" ∈ core ∧ ∀ x ∈ core, x = "c1" ∨ x = "c2" := by
  have hb : buildAsserts (activeOf [c2c1, c2c2] false)
      (initialVars (activeOf [c2c1, c2c2] false)) [] =
      .ok ([("c1", BExpr.var "X"), ("c2", BExpr.not (BExpr.var "X"))], ["X"]) := rfl
  have hv := validateConsistency_eq check st [c2c1, c2c2] false _ _ rfl rfl hb
  obtain ⟨hsat, hunsat, hunk⟩ :=
    hgood [("c1", BExpr.var "X"), ("c2", BExpr.not (BExpr.var "X"))]
  have hcontra : ¬ ∃ m, ClausesSat m
      [("c1", BExpr.var "X"), ("c2", BExpr.not (BExpr.var "X"))] := by
    rintro ⟨m, hm⟩
    have h1 : evalB m (BExpr.var "X") = true :=
      hm ("c1", BExpr.var "X") (by simp)
    have h2 : evalB m (BExpr.not (BExpr.var "X")) = true :=
      hm ("c2", BExpr.not (BExpr.var "X")) (by simp)
    simp [evalB] at h1 h2
    rw [h1] at h2
    exact absurd h2 (by decide)
  cases hcheck : check [("c1", BExpr.var "X"), ("c2", BExpr.not (BExpr.var "X"))] with
  | sat m => exact absurd ⟨m, hsat m hcheck⟩ hcontra
  | unknown => exact absurd hcheck hunk
  | unsat core =>
    obtain ⟨hsub, hcu⟩ := hunsat core hcheck
    have hc1 : "c1" ∈ core := by
      by_contra h1n
      apply hcu
      refine ⟨fun _ => false, ?_⟩
      intro p hp
      obtain ⟨hmem, hcont⟩ := List.mem_filter.mp hp
      rcases (by simpa using hmem :
          p = ("c1", BExpr.var "X") ∨ p = ("c2", BExpr.not (BExpr.var "X"))) with rfl | rfl
      · exact absurd (by simpa using hcont) h1n
      · simp [evalB]
    have hc2 : "c2" ∈ core := by
      by_contra h2n
      apply hcu
      refine ⟨fun _ => true, ?_⟩
      intro p hp
      obtain ⟨hmem, hcont⟩ := List.mem_filter.mp hp
      rcases (by simpa using hmem :
          p = ("c1", BExpr.var "X") ∨ p = ("c2", BExpr.not (BExpr.var "X"))) with rfl | rfl
      · simp [evalB]
      · exact absurd (by simpa using hcont) h2n
    have honly : ∀ x ∈ core, x = "c1" ∨ x = "c2" := by
      intro x hx
      have := hsub x hx
      simpa using this
    refine ⟨{ satisfiable := false
              status := "unsat"
              unsat_core := some core
              conflicts := some (explainConflicts
                ((activeOf [c2c1, c2c2] false).foldl
                  (fun d c => pyDictInsert c.id c d) st.constraint_db)
                st.ranker core).1
              explanation := "Found " ++ natStr core.length ++
                " conflicting constraints" },
            ?_, rfl, rfl, core, rfl, hc1, hc2, honly⟩
    rw [hv, hcheck]

theorem claim_C2_witness :
    goodSolver bruteCheck ∧
    ∃ res : ValidationResult,
      (validateConsistency bruteCheck {} [c2c1, c2c2] false).1 = .ok res ∧
      res.satisfiable = false ∧
      res.status = "unsat" ∧
      ∃ core, res.unsat_core = some core ∧
        "c1" ∈ core ∧ "c2" ∈ core ∧ ∀ x ∈ core, x = "c1" ∨ x = "c2" :=
  ⟨bruteCheck_good, claim_C2_direct_contradiction bruteCheck bruteCheck_good {}⟩

/-! ### Claim C3: variable-tracking lemmas for the parser -/

def SortedLe {α : Type} (le : α → α → Bool) (l : List α) : Prop :=
  l.Pairwise (fun a b => le a b = true)

theorem insertLe_perm {α : Type} (le : α → α → Bool) (x : α) (l : List α) :
    List.Perm (insertLe le x l) (x :: l) := by
  induction l with
  | nil => exact List.Perm.refl _
  | cons y ys ih =>
    unfold insertLe
    split
    · exact (ih.cons y).trans (List.Perm.swap x y ys)
    · exact List.Perm.refl _

theorem insertLe_sorted {α : Type} (le : α → α → Bool)
    (htot : ∀ a b, le a b = true ∨ le b a = true)
    (htrans : ∀ a b c, le a b = true → le b c = true → le a c = true)
    (x : α) (l : List α) (hl : SortedLe le l) : SortedLe le (insertLe le x l) := by
  induction l with
  | nil => simp [insertLe, SortedLe]
  | cons y ys ih =>
    obtain ⟨hy, hys⟩ := List.pairwise_cons.mp hl
    unfold insertLe
    split
    · next hcond =>
      simp only [Bool.and_eq_true, Bool.not_eq_true'] at hcond
      obtain ⟨hyx, _⟩ := hcond
      refine List.pairwise_cons.mpr ⟨?_, ih hys⟩
      intro z hz
      have hz' := (insertLe_perm le x ys).mem_iff.mp hz
      rcases List.mem_cons.mp hz' with rfl | hzys
      · exact hyx
      · exact hy z hzys
    · next hcond =>
      have hxyle : le x y = true := by
        simp only [Bool.and_eq_true, Bool.not_eq_true'] at hcond
        rcases htot x y with h | h
        · exact h
        · by_cases hxy : le x y = true
          · exact hxy
          · exact absurd ⟨h, by simpa using hxy⟩ hcond
      refine List.pairwise_cons.mpr ⟨?_, hl⟩
      intro z hz
      rcases List.mem_cons.mp hz with rfl | hzys
      · exact hxyle
      · exact htrans x y z hxyle (hy z hzys)

theorem sortLe_perm {α : Type} (le : α → α → Bool) (l : List α) :
    List.Perm (sortLe le l) l := by
  induction l with
  | nil => exact List.Perm.refl _
  | cons x xs ih => exact (insertLe_perm le x (sortLe le xs)).trans (ih.cons x)

theorem sortLe_sorted {α : Type} (le : α → α → Bool)
    (htot : ∀ a b, le a b = true ∨ le b a = true)
    (htrans : ∀ a b c, le a b = true → le b c = true → le a c = true)
    (l : List α) : SortedLe le (sortLe le l) := by
  induction l with
  | nil => simp [sortLe, SortedLe]
  | cons x xs ih => exact insertLe_sorted le htot htrans x (sortLe le xs) ih

theorem keyLe_refl (a : Nat × Bool × String) : keyLe a a = true := by
  obtain ⟨a1, a2, a3⟩ := a
  simp [keyLe]

theorem keyLe_total (a b : Nat × Bool × String) :
    keyLe a b = true ∨ keyLe b a = true := by
  obtain ⟨a1, a2, a3⟩ := a
  obtain ⟨b1, b2, b3⟩ := b
  simp only [keyLe, Bool.or_eq_true, Bool.and_eq_true, decide_eq_true_eq]
  rcases Nat.lt_trichotomy a1 b1 with h | h | h
  · exact Or.inl (Or.inl (by simpa using h))
  · subst h
    cases a2 <;> cases b2
    · rcases le_total a3 b3 with h3 | h3
      · exact Or.inl (Or.inr ⟨rfl, Or.inr ⟨rfl, h3⟩⟩)
      · exact Or.inr (Or.inr ⟨rfl, Or.inr ⟨rfl, h3⟩⟩)
    · exact Or.inl (Or.inr ⟨rfl, Or.inl (by simp [boolNat])⟩)
    · exact Or.inr (Or.inr ⟨rfl, Or.inl (by simp [boolNat])⟩)
    · rcases le_total a3 b3 with h3 | h3
      · exact Or.inl (Or.inr ⟨rfl, Or.inr ⟨rfl, h3⟩⟩)
      · exact Or.inr (Or.inr ⟨rfl, Or.inr ⟨rfl, h3⟩⟩)
  · exact Or.inr (Or.inl (by simpa using h))

theorem keyLe_trans (a b c : Nat × Bool × String)
    (hab : keyLe a b = true) (hbc : keyLe b c = true) : keyLe a c = true := by
  obtain ⟨a1, a2, a3⟩ := a
  obtain ⟨b1, b2, b3⟩ := b
  obtain ⟨c1, c2, c3⟩ := c
  simp only [keyLe, Bool.or_eq_true, Bool.and_eq_true, decide_eq_true_eq] at hab hbc ⊢
  rcases hab with h1 | ⟨he1, h1⟩
  · rcases hbc with h2 | ⟨he2, h2⟩
    · exact Or.inl (by omega)
    · exact Or.inl (by omega)
  · rcases hbc with h2 | ⟨he2, h2⟩
    · exact Or.inl (by omega)
    · refine Or.inr ⟨by omega, ?_⟩
      rcases h1 with hb1 | ⟨hbe1, hs1⟩
      · rcases h2 with hb2 | ⟨hbe2, hs2⟩
        · cases a2 <;> cases b2 <;> cases c2 <;> simp_all [boolNat]
        · subst hbe2
          exact Or.inl hb1
      · subst hbe1
        rcases h2 with hb2 | ⟨hbe2, hs2⟩
        · exact Or.inl hb2
        · subst hbe2
          exact Or.inr ⟨rfl, le_trans hs1 hs2⟩

theorem getLastD_mem_cons {α : Type} :
    ∀ (l : List α) (a d : α), (a :: l).getLastD d ∈ a :: l := by
  intro l
  induction l with
  | nil => intro a d; simp
  | cons b bs ih =>
    intro a d
    rw [List.getLastD_cons]
    exact List.mem_cons_of_mem a (ih b a)

theorem getLastD_map_cons {α β : Type} (f : α → β) :
    ∀ (l : List α) (a : α) (d : β) (e : α),
      ((a :: l).map f).getLastD d = f ((a :: l).getLastD e) := by
  intro l
  induction l with
  | nil => intro a d e; simp
  | cons b bs ih =>
    intro a d e
    simp only [List.map_cons, List.getLastD_cons]
    have h0 := ih b d a
    simp only [List.map_cons, List.getLastD_cons] at h0
    exact h0

/-- The authority cache only grows: every existing binding stays
visible. -/
def rExtends (r r' : Ranker) : Prop :=
  ∀ k v, r.court_cache.lookup k = some v → r'.court_cache.lookup k = some v

theorem rExtends_refl (r : Ranker) : rExtends r r := fun _ _ h => h

theorem rExtends_trans {r1 r2 r3 : Ranker}
    (h1 : rExtends r1 r2) (h2 : rExtends r2 r3) : rExtends r1 r3 :=
  fun k v hv => h2 k v (h1 k v hv)

theorem lookup_append_of_some {α : Type} (l l' : List (String × α))
    (k : String) (v : α) (h : l.lookup k = some v) : (l ++ l').lookup k = some v := by
  induction l with
  | nil => simp [List.lookup] at h
  | cons p ps ih =>
    obtain ⟨pk, pv⟩ := p
    simp only [List.lookup, List.cons_append] at h ⊢
    cases hk : k == pk with
    | true => rw [hk] at h; exact h
    | false => rw [hk] at h; exact ih h

theorem detectAuthority_rExtends (r : Ranker) (s : Source) :
    rExtends r (detectAuthority r s).2 := by
  intro k v hv
  unfold detectAuthority
  dsimp only
  cases h : r.court_cache.lookup (strLower s.doc_title ++ ":" ++ strLower s.court) with
  | some info =>
    exact hv
  | none =>
    dsimp only
    exact lookup_append_of_some _ _ k v hv

theorem detectAuthority_congr (r r' : Ranker) (s : Source)
    (hext : rExtends (detectAuthority r s).2 r') :
    detectAuthority r' s = ((detectAuthority r s).1, r') := by
  have hc := detectAuthority_cached r s
  have hl := hext _ _ hc
  generalize hp : detectAuthority r s = p at *
  unfold detectAuthority
  dsimp only
  rw [hl]

/-- The key-computation pass of `rank_constraints`: the final ranker
extends the initial one, the keyed list carries the constraints in
order, and each key is exactly the authority data that a fresh
`detect_authority` call in the final state reproduces. -/
theorem computeKeys_spec :
    ∀ (cs : List AConstraint) (r : Ranker) (ks : List (AConstraint × (Nat × Bool × String)))
      (r' : Ranker), computeKeys r cs = (ks, r') →
      rExtends r r' ∧
      ks.map Prod.fst = cs ∧
      ∀ p ∈ ks, ∃ info : AuthorityInfo,
        detectAuthority r' (p.1.source.getD {}) = (info, r') ∧
        p.2.1 = info.level ∧
        p.2.2.1 = !info.binding ∧
        p.2.2.2 = (p.1.source.getD {}).date.getD "9999" := by
  intro cs
  induction cs with
  | nil =>
    intro r ks r' h
    simp only [computeKeys] at h
    cases h
    exact ⟨rExtends_refl r, rfl, by simp⟩
  | cons c rest ih =>
    intro r ks r' h
    simp only [computeKeys, authorityKey] at h
    rcases hd : detectAuthority r (c.source.getD {}) with ⟨info, r1⟩
    rw [hd] at h
    dsimp only at h
    rcases hck : computeKeys r1 rest with ⟨ks', r2⟩
    rw [hck] at h
    dsimp only at h
    cases h
    obtain ⟨hext, hmap, hprop⟩ := ih r1 ks' _ hck
    have hext0 : rExtends r r' := by
      have h1 : rExtends r r1 := by
        have := detectAuthority_rExtends r (c.source.getD {})
        rw [hd] at this
        exact this
      exact rExtends_trans h1 hext
    refine ⟨hext0, by simp [hmap], ?_⟩
    intro p hp
    rcases List.mem_cons.mp hp with rfl | hp'
    · refine ⟨info, ?_, rfl, rfl, rfl⟩
      have hx : rExtends (detectAuthority r (c.source.getD {})).2 r' := by
        rw [hd]
        exact hext
      have hcg := detectAuthority_congr r r' (c.source.getD {}) hx
      rw [hd] at hcg
      exact hcg
    · exact hprop p hp'

theorem keyLe_le_fst (a b : Nat × Bool × String) (h : keyLe a b = true) :
    a.1 ≤ b.1 := by
  obtain ⟨a1, a2, a3⟩ := a
  obtain ⟨b1, b2, b3⟩ := b
  simp only [keyLe, Bool.or_eq_true, Bool.and_eq_true, decide_eq_true_eq] at h
  rcases h with h | ⟨h, _⟩ <;> omega

/-- Claim C5: `resolve_conflict` is unresolved with a no-constraints
reason on empty input, trivially resolved on a singleton, and on two or
more constraints ranks them and compares the top- and bottom-ranked
authorities: different levels make the top-ranked (weakly
higher-authority, strictly when levels differ) constraint the winner
with a which-overrode-which reason; equal levels fail resolution with
the same-authority reason, the full ranked list and a manual-review
recommendation. -/
theorem claim_C5_resolve_conflict (r : Ranker) :
    ((resolveConflict r []).1 =
      { resolved := false, reason := "No constraints provided" }) ∧
    (∀ c, (resolveConflict r [c]).1 =
      { resolved := true, winner := some c, reason := "Only one constraint" }) ∧
    (∀ c0 c1 rest, ∀ ranked r1,
      rankConstraints r (c0 :: c1 :: rest) = (ranked, r1) →
      ∀ wa r2, detectAuthority r1 ((ranked.headD {}).source.getD {}) = (wa, r2) →
      ∀ la r3, detectAuthority r2 ((ranked.getLastD {}).source.getD {}) = (la, r3) →
      List.Perm ranked (c0 :: c1 :: rest) ∧
      wa.level ≤ la.level ∧
      (wa.level ≠ la.level →
        (resolveConflict r (c0 :: c1 :: rest)).1.resolved = true ∧
        (resolveConflict r (c0 :: c1 :: rest)).1.winner = some (ranked.headD {}) ∧
        (resolveConflict r (c0 :: c1 :: rest)).1.loser = some (ranked.getLastD {}) ∧
        (resolveConflict r (c0 :: c1 :: rest)).1.reason =
          levelName wa.level ++ " (" ++ pyOptStr wa.court_name ++ ") overrides " ++
          levelName la.level ++ " (" ++ pyOptStr la.court_name ++ ")") ∧
      (wa.level = la.level →
        (resolveConflict r (c0 :: c1 :: rest)).1.resolved = false ∧
        (resolveConflict r (c0 :: c1 :: rest)).1.reason =
          "Same authority level (" ++ levelName wa.level ++ ")" ∧
        (resolveConflict r (c0 :: c1 :: rest)).1.constraints = some ranked ∧
        (resolveConflict r (c0 :: c1 :: rest)).1.recommendation =
          some "Manual review required - same authority level")) := by
  refine ⟨rfl, fun c => rfl, ?_⟩
  intro c0 c1 rest ranked r1 hrank wa r2 hwa la r3 hla
  rcases hck : computeKeys r (c0 :: c1 :: rest) with ⟨ks, rk⟩
  have hrank0 : rankConstraints r (c0 :: c1 :: rest) =
      ((sortLe (fun a b => keyLe a.2 b.2) ks).map Prod.fst, rk) := by
    unfold rankConstraints
    rw [hck]
  rw [hrank0] at hrank
  cases hrank
  obtain ⟨hext, hmapfst, hprop⟩ := computeKeys_spec _ r ks r1 hck
  have hperm0 : List.Perm (sortLe (fun a b => keyLe a.2 b.2) ks) ks :=
    sortLe_perm _ ks
  have hsorted : SortedLe (fun a b => keyLe a.2 b.2)
      (sortLe (fun a b => keyLe a.2 b.2) ks) :=
    sortLe_sorted _ (fun a b => keyLe_total a.2 b.2)
      (fun a b c => keyLe_trans a.2 b.2 c.2) ks
  have hlen : (sortLe (fun a b => keyLe a.2 b.2) ks).length =
      (c0 :: c1 :: rest).length := by
    rw [hperm0.length_eq, ← hmapfst, List.length_map]
  cases hs : sortLe (fun a b => keyLe a.2 b.2) ks with
  | nil => rw [hs] at hlen; simp at hlen
  | cons q0 qrest =>
    rw [hs] at hwa hla hsorted hperm0
    have hlastmem : qrest.getLastD q0 ∈ q0 :: qrest := by
      have h0 := getLastD_mem_cons qrest q0 q0
      rwa [List.getLastD_cons] at h0
    have hhead : ((q0 :: qrest).map Prod.fst).headD {} = q0.1 := by simp
    have hlast : ((q0 :: qrest).map Prod.fst).getLastD {} = (qrest.getLastD q0).1 := by
      have h0 := getLastD_map_cons Prod.fst qrest q0 ({} : AConstraint) q0
      rwa [List.getLastD_cons] at h0
    have hkey : keyLe q0.2 (qrest.getLastD q0).2 = true := by
      rcases List.mem_cons.mp hlastmem with heq | hmem
      · rw [heq]; exact keyLe_refl _
      · exact (List.pairwise_cons.mp hsorted).1 _ hmem
    have hq0ks : q0 ∈ ks := hperm0.subset (List.mem_cons_self _ _)
    have hqlks : qrest.getLastD q0 ∈ ks := hperm0.subset hlastmem
    obtain ⟨info0, hd0, hl0, _, _⟩ := hprop q0 hq0ks
    obtain ⟨infoL, hdL, hlL, _, _⟩ := hprop _ hqlks
    rw [hhead] at hwa
    rw [hd0] at hwa
    cases hwa
    rw [hlast] at hla
    rw [hdL] at hla
    cases hla
    have hperm : List.Perm ((q0 :: qrest).map Prod.fst) (c0 :: c1 :: rest) := by
      rw [← hmapfst]
      exact hperm0.map Prod.fst
    have hle : wa.level ≤ la.level := by
      have h0 := keyLe_le_fst _ _ hkey
      rw [hl0, hlL] at h0
      exact h0
    have hlast' : (List.map Prod.fst qrest).getLastD q0.1 = (qrest.getLastD q0).1 := by
      have h0 := hlast
      simp only [List.map_cons, List.getLastD_cons] at h0
      exact h0
    have hmaster : resolveConflict r (c0 :: c1 :: rest) =
        (if wa.level = la.level then
          ({ resolved := false
             reason := "Same authority level (" ++ levelName wa.level ++ ")"
             constraints := some ((q0 :: qrest).map Prod.fst)
             recommendation := some "Manual review required - same authority level" },
           r1)
        else
          let p := authorityHierarchy r1 ((q0 :: qrest).map Prod.fst)
          ({ resolved := true
             winner := some q0.1
             loser := some (qrest.getLastD q0).1
             reason := levelName wa.level ++ " (" ++ pyOptStr wa.court_name ++
               ") overrides " ++ levelName la.level ++ " (" ++
               pyOptStr la.court_name ++ ")"
             authority_hierarchy := some p.1 }, p.2)) := by
      unfold resolveConflict
      dsimp only
      rw [hrank0, hs]
      simp only [List.map_cons, List.headD_cons, List.getLastD_cons]
      rw [hlast']
      rw [hd0]
      dsimp only
      rw [hdL]
    refine ⟨hperm, hle, ?_, ?_⟩
    · intro hne
      rw [hmaster, if_neg hne]
      refine ⟨rfl, ?_, ?_, rfl⟩
      · rw [hhead]
      · rw [hlast]
    · intro heq
      rw [hmaster, if_pos heq]
      exact ⟨rfl, rfl, rfl, rfl⟩

def c5a : AConstraint :=
  { source := some { court := "Supreme Court of the United States" }, label := "A" }

def c5b : AConstraint :=
  { source := some { doc_type := "email" }, label := "B" }

theorem claim_C5_witness :
    ((detectAuthority (rankConstraints {} [c5a, c5b]).2
        (((rankConstraints {} [c5a, c5b]).1.headD {}).source.getD {})).1.level ≠
      (detectAuthority
        (detectAuthority (rankConstraints {} [c5a, c5b]).2
          (((rankConstraints {} [c5a, c5b]).1.headD {}).source.getD {})).2
        (((rankConstraints {} [c5a, c5b]).1.getLastD {}).source.getD {})).1.level) ∧
    (resolveConflict {} [c5a, c5b]).1.resolved = true ∧
    (resolveConflict {} [c5a, c5b]).1.winner =
      some ((rankConstraints {} [c5a, c5b]).1.headD {}) := by
  have h := (claim_C5_resolve_conflict {}).2.2 c5a c5b []
    (rankConstraints {} [c5a, c5b]).1 (rankConstraints {} [c5a, c5b]).2 rfl
    (detectAuthority (rankConstraints {} [c5a, c5b]).2
      (((rankConstraints {} [c5a, c5b]).1.headD {}).source.getD {})).1
    (detectAuthority (rankConstraints {} [c5a, c5b]).2
      (((rankConstraints {} [c5a, c5b]).1.headD {}).source.getD {})).2 rfl
    (detectAuthority
      (detectAuthority (rankConstraints {} [c5a, c5b]).2
        (((rankConstraints {} [c5a, c5b]).1.headD {}).source.getD {})).2
      (((rankConstraints {} [c5a, c5b]).1.getLastD {}).source.getD {})).1
    (detectAuthority
      (detectAuthority (rankConstraints {} [c5a, c5b]).2
        (((rankConstraints {} [c5a, c5b]).1.headD {}).source.getD {})).2
      (((rankConstraints {} [c5a, c5b]).1.getLastD {}).source.getD {})).2 rfl
  have hne := (by decide :
    ((detectAuthority (rankConstraints {} [c5a, c5b]).2
        (((rankConstraints {} [c5a, c5b]).1.headD {}).source.getD {})).1.level ≠
      (detectAuthority
        (detectAuthority (rankConstraints {} [c5a, c5b]).2
          (((rankConstraints {} [c5a, c5b]).1.headD {}).source.getD {})).2
        (((rankConstraints {} [c5a, c5b]).1.getLastD {}).source.getD {})).1.level))
  obtain ⟨hres, hwin, _, _⟩ := h.2.2.1 hne
  exact ⟨hne, hres, hwin⟩

/-! ### Claim C9: the pattern fallback mints fresh variables and the
resulting sets are satisfiable -/

theorem factVar_injective : Function.Injective factVar := by
  intro a b h
  apply natStr_injective
  have hd : (factVar a).data = (factVar b).data := congrArg String.data h
  simp only [factVar, String.data_append] at hd
  have h2 := List.append_cancel_left hd
  cases hna : natStr a with
  | mk la =>
    cases hnb : natStr b with
    | mk lb =>
      rw [hna, hnb] at h2
      simp only at h2
      rw [h2]

/-- The shape of every constraint the pattern fallback produces with
counter value `n`. -/
def IsFact (n : Nat) (c : Constraint) : Prop :=
  c.variables' = [factVar n] ∧
  (c.logic_form = factVar n ++ " == True" ∨
   c.logic_form = factVar n ++ " == False") ∧
  c.is_hard = true

/-- A run of fallback constraints whose counters strictly increase in
the interval `(k, k']`. -/
inductive FactBlock : Nat → List Constraint → Nat → Prop where
  | nil (k k' : Nat) (h : k ≤ k') : FactBlock k [] k'
  | cons {k n k' : Nat} {c : Constraint} {cs : List Constraint}
      (hlt : k < n) (hc : IsFact n c) (ht : FactBlock n cs k') :
      FactBlock k (c :: cs) k'

theorem FactBlock.start_le {k k' : Nat} {cs : List Constraint}
    (h : FactBlock k cs k') : k ≤ k' := by
  induction h with
  | nil _ _ h => exact h
  | cons hlt _ _ ih => omega

theorem FactBlock.mono_start {k0 k k' : Nat} {cs : List Constraint}
    (hk : k0 ≤ k) (h : FactBlock k cs k') : FactBlock k0 cs k' := by
  induction h with
  | nil _ _ h => exact .nil _ _ (le_trans hk h)
  | cons hlt hc ht _ => exact .cons (by omega) hc ht

theorem FactBlock.append {k k1 k2 : Nat} {cs1 cs2 : List Constraint}
    (h1 : FactBlock k cs1 k1) (h2 : FactBlock k1 cs2 k2) :
    FactBlock k (cs1 ++ cs2) k2 := by
  induction h1 with
  | nil _ _ h => exact h2.mono_start h
  | cons hlt hc _ ih => exact .cons hlt hc (ih h2)

theorem FactBlock.sublist {k k' : Nat} {cs cs' : List Constraint}
    (hsub : List.Sublist cs' cs) (h : FactBlock k cs k') : FactBlock k cs' k' := by
  induction hsub generalizing k with
  | slnil => exact h
  | cons a _ ih =>
    cases h with
    | cons hlt hc ht => exact (ih ht).mono_start (le_of_lt hlt)
  | cons₂ a _ ih =>
    cases h with
    | cons hlt hc ht => exact .cons hlt hc (ih ht)

theorem FactBlock.mem {k k' : Nat} {cs : List Constraint}
    (h : FactBlock k cs k') : ∀ c ∈ cs, ∃ n, k < n ∧ n ≤ k' ∧ IsFact n c := by
  induction h with
  | nil => intro c hc; simp at hc
  | cons hlt hc ht ih =>
    intro c hcmem
    rcases List.mem_cons.mp hcmem with rfl | hmem
    · exact ⟨_, hlt, ht.start_le, hc⟩
    · obtain ⟨n, h1, h2, h3⟩ := ih c hmem
      exact ⟨n, by omega, h2, h3⟩

theorem FactBlock.pairwise_vars {k k' : Nat} {cs : List Constraint}
    (h : FactBlock k cs k') :
    cs.Pairwise (fun a b => a.variables' ≠ b.variables') := by
  induction h with
  | nil => exact List.Pairwise.nil
  | cons hlt hc ht ih =>
    rename_i k0 n k1 c0 cs0
    refine List.Pairwise.cons ?_ ih
    intro b hb heq
    obtain ⟨m, hm1, _, hmfact⟩ := ht.mem b hb
    rw [hc.1, hmfact.1] at heq
    have hfv : factVar n = factVar m := by simpa using heq
    have := factVar_injective hfv
    omega

theorem scanPats_factBlock (mk : String → Nat → Constraint)
    (hmk : ∀ s n, IsFact n (mk s n)) :
    ∀ (pats : List (List Tok)) (q : List Char) (k : Nat),
      FactBlock k (scanPats mk pats q k).1 (scanPats mk pats q k).2 := by
  intro pats
  induction pats with
  | nil => intro q k; exact .nil k k le_rfl
  | cons p ps ih =>
    intro q k
    simp only [scanPats]
    cases hr : reSearch p q with
    | none => exact ih q k
    | some mtext =>
      dsimp only
      rcases hsc : scanPats mk ps q (k + 1) with ⟨cs', k'⟩
      dsimp only
      have hih := ih q (k + 1)
      rw [hsc] at hih
      exact .cons (Nat.lt_succ_self k) (hmk mtext (k + 1)) hih

theorem patternExtract_factBlock (quote : String) (prov : Provenance) (k : Nat) :
    FactBlock k (patternExtract quote prov k).1 (patternExtract quote prov k).2 := by
  unfold patternExtract
  have hneg : ∀ s n, IsFact n (mkNegC prov s n) :=
    fun s n => ⟨rfl, Or.inr rfl, rfl⟩
  have hassert : ∀ s n, IsFact n (mkAssertC prov s n) :=
    fun s n => ⟨rfl, Or.inl rfl, rfl⟩
  dsimp only
  rcases h1 : scanPats (mkNegC prov) negationPatterns (strLower quote).data k
    with ⟨negs, k1⟩
  dsimp only
  rcases h2 : scanPats (mkAssertC prov) assertionPatterns (strLower quote).data k1
    with ⟨asserts, k2⟩
  dsimp only
  have hb1 := scanPats_factBlock (mkNegC prov) hneg negationPatterns
    (strLower quote).data k
  rw [h1] at hb1
  have hb2 := scanPats_factBlock (mkAssertC prov) hassert assertionPatterns
    (strLower quote).data k1
  rw [h2] at hb2
  exact hb1.append hb2

theorem extractFromFindingFB_factBlock (f : Finding) (k : Nat) :
    FactBlock k (extractFromFindingFB f k).1 (extractFromFindingFB f k).2 := by
  unfold extractFromFindingFB
  split
  · exact .nil k k le_rfl
  · exact patternExtract_factBlock f.quote (provOf f) k

theorem extractRaw_factBlock :
    ∀ (fs : List Finding) (k : Nat),
      FactBlock k (extractRaw extractFromFindingFB fs k).1
        (extractRaw extractFromFindingFB fs k).2 := by
  intro fs
  induction fs with
  | nil => intro k; exact .nil k k le_rfl
  | cons f fs ih =>
    intro k
    simp only [extractRaw]
    rcases h1 : extractFromFindingFB f k with ⟨cs1, k1⟩
    dsimp only
    rcases h2 : extractRaw extractFromFindingFB fs k1 with ⟨cs2, k2⟩
    dsimp only
    have hb1 := extractFromFindingFB_factBlock f k
    rw [h1] at hb1
    have hb2 := ih k1
    rw [h2] at hb2
    exact hb1.append hb2

theorem dedupGo_sublist (cs : List Constraint) :
    ∀ seen, List.Sublist (dedupGo seen cs) cs := by
  induction cs with
  | nil => intro seen; simp [dedupGo]
  | cons c rest ih =>
    intro seen
    simp only [dedupGo]
    split
    · exact (ih seen).cons c
    · exact (ih (c.logic_form :: seen)).cons₂ c

/-- The deduplicated fallback batch is itself a strictly increasing
fact block. -/
theorem extractConstraintsFB_factBlock (fs : List Finding) (k : Nat) :
    FactBlock k (extractConstraintsFB fs k).1
      (extractRaw extractFromFindingFB fs k).2 := by
  have hfb := extractRaw_factBlock fs k
  have heq : (extractConstraintsFB fs k).1 =
      dedupByLogicForm (extractRaw extractFromFindingFB fs k).1 :=
    extractConstraints_fst extractFromFindingFB fs k
  rw [heq]
  exact hfb.sublist (dedupGo_sublist _ [])

theorem takeWhile_append_stop {p : Char → Bool} :
    ∀ (l1 : List Char) (x : Char) (l2 : List Char),
      (∀ c ∈ l1, p c = true) → p x = false →
      (l1 ++ x :: l2).takeWhile p = l1 := by
  intro l1
  induction l1 with
  | nil =>
    intro x l2 _ hx
    simp [List.takeWhile_cons, hx]
  | cons c cs ih =>
    intro x l2 hall hx
    simp only [List.cons_append, List.takeWhile_cons, hall c (List.mem_cons_self _ _)]
    rw [ih x l2 (fun u hu => hall u (List.mem_cons_of_mem _ hu)) hx]
    simp

theorem dropWhile_append_stop {p : Char → Bool} :
    ∀ (l1 : List Char) (x : Char) (l2 : List Char),
      (∀ c ∈ l1, p c = true) → p x = false →
      (l1 ++ x :: l2).dropWhile p = x :: l2 := by
  intro l1
  induction l1 with
  | nil =>
    intro x l2 _ hx
    simp [List.dropWhile_cons, hx]
  | cons c cs ih =>
    intro x l2 hall hx
    simp only [List.cons_append, List.dropWhile_cons, hall c (List.mem_cons_self _ _)]
    exact ih x l2 (fun u hu => hall u (List.mem_cons_of_mem _ hu)) hx

theorem natDigitsAux_digits :
    ∀ fuel n, ∀ c ∈ natDigitsAux fuel n, ∃ d, d < 10 ∧ c = digitOfNat d := by
  intro fuel
  induction fuel with
  | zero => intro n c hc; simp [natDigitsAux] at hc
  | succ f ih =>
    intro n c hc
    simp only [natDigitsAux] at hc
    split at hc
    · next h10 =>
      simp only [List.mem_singleton] at hc
      exact ⟨n, h10, hc⟩
    · next h10 =>
      rcases List.mem_append.mp hc with hmem | hmem
      · exact ih (n / 10) c hmem
      · simp only [List.mem_singleton] at hmem
        exact ⟨n % 10, Nat.mod_lt _ (by omega), hmem⟩

theorem isWordCh_digitOfNat {d : Nat} (h : d < 10) :
    isWordCh (digitOfNat d) = true := by
  interval_cases d <;> decide

theorem factVar_wordChars (n : Nat) :
    ∀ c ∈ (factVar n).data, isWordCh c = true := by
  intro c hc
  simp only [factVar, String.data_append] at hc
  rcases List.mem_append.mp hc with hmem | hmem
  · fin_cases hmem <;> decide
  · have : c ∈ natDigitsAux (n + 1) n := hmem
    obtain ⟨d, hd, rfl⟩ := natDigitsAux_digits (n + 1) n c this
    exact isWordCh_digitOfNat hd

theorem factVar_data_ne_nil (n : Nat) : (factVar n).data ≠ [] := by
  simp [factVar, String.data_append]

theorem reMatchCmp_fact (v : String) (hne : v.data ≠ [])
    (hw : ∀ c ∈ v.data, isWordCh c = true) :
    reMatchCmp "==".data (v ++ " == True") = some (v, true) ∧
    reMatchCmp "==".data (v ++ " == False") = some (v, false) := by
  obtain ⟨vd⟩ := v
  cases vd with
  | nil => simp at hne
  | cons a l =>
    have hw' : ∀ c ∈ a :: l, isWordCh c = true := hw
    constructor
    · unfold reMatchCmp
      have hdata : (String.mk (a :: l) ++ " == True").data =
          (a :: l) ++ (' ' :: '=' :: '=' :: ' ' :: 'T' :: 'r' :: 'u' :: 'e' :: []) := by
        rw [String.data_append]
      dsimp only
      rw [hdata, takeWhile_append_stop _ _ _ hw' (by decide),
        dropWhile_append_stop _ _ _ hw' (by decide)]
      rfl
    · unfold reMatchCmp
      have hdata : (String.mk (a :: l) ++ " == False").data =
          (a :: l) ++ (' ' :: '=' :: '=' :: ' ' :: 'F' :: 'a' :: 'l' :: 's' :: 'e' :: []) := by
        rw [String.data_append]
      dsimp only
      rw [hdata, takeWhile_append_stop _ _ _ hw' (by decide),
        dropWhile_append_stop _ _ _ hw' (by decide)]
      rfl

theorem append_cmp_ne_empty (v suf : String) (hsuf : suf.data ≠ []) :
    v ++ suf ≠ "" := by
  intro h
  have := congrArg String.data h
  simp only [String.data_append] at this
  rcases List.append_eq_nil.mp this with ⟨_, h2⟩
  exact hsuf h2

theorem parseLogicToZ3_factTrue (n : Nat) (vars : List String) :
    parseLogicToZ3 (factVar n ++ " == True") vars =
      (some (.expr (.var (factVar n))), addVar (factVar n) vars) := by
  have hcmp := (reMatchCmp_fact (factVar n) (factVar_data_ne_nil n)
    (factVar_wordChars n)).1
  unfold parseLogicToZ3
  rw [if_neg (append_cmp_ne_empty _ _ (by decide))]
  rw [hcmp]
  rfl

theorem parseLogicToZ3_factFalse (n : Nat) (vars : List String) :
    parseLogicToZ3 (factVar n ++ " == False") vars =
      (some (.expr (.not (.var (factVar n)))), addVar (factVar n) vars) := by
  have hcmp := (reMatchCmp_fact (factVar n) (factVar_data_ne_nil n)
    (factVar_wordChars n)).2
  unfold parseLogicToZ3
  rw [if_neg (append_cmp_ne_empty _ _ (by decide))]
  rw [hcmp]
  rfl

/-- A tracked clause is the literal (positive or negated) of `fact_n`. -/
def repOf (p : String × BExpr) (n : Nat) : Prop :=
  p.2 = BExpr.var (factVar n) ∨ p.2 = BExpr.not (BExpr.var (factVar n))

/-- Tracked clauses that are fact literals with strictly increasing
counters in `(k, k']`. -/
inductive FactClauses : Nat → List (String × BExpr) → Nat → Prop where
  | nil (k k' : Nat) (h : k ≤ k') : FactClauses k [] k'
  | cons {k n k' : Nat} {p : String × BExpr} {ps : List (String × BExpr)}
      (hlt : k < n) (hp : repOf p n) (ht : FactClauses n ps k') :
      FactClauses k (p :: ps) k'

theorem FactClauses.lower_le {k k' : Nat} {ps : List (String × BExpr)}
    (h : FactClauses k ps k') : k ≤ k' := by
  induction h with
  | nil _ _ h => exact h
  | cons hlt _ _ ih => omega

theorem FactClauses.memRep {k k' : Nat} {ps : List (String × BExpr)}
    (h : FactClauses k ps k') : ∀ p ∈ ps, ∃ n, k < n ∧ n ≤ k' ∧ repOf p n := by
  induction h with
  | nil => intro p hp; simp at hp
  | cons hlt hp ht ih =>
    intro q hq
    rcases List.mem_cons.mp hq with rfl | hmem
    · exact ⟨_, hlt, ht.lower_le, hp⟩
    · obtain ⟨n, h1, h2, h3⟩ := ih q hmem
      exact ⟨n, by omega, h2, h3⟩

theorem repOf_unique {p : String × BExpr} {n m : Nat}
    (h1 : repOf p n) (h2 : repOf p m) : n = m := by
  rcases h1 with h1 | h1 <;> rcases h2 with h2 | h2 <;> rw [h1] at h2
  · exact factVar_injective (by injection h2)
  · exact absurd h2 (by simp)
  · exact absurd h2 (by simp)
  · exact factVar_injective (by injection h2 with h3; injection h3)

theorem FactClauses.pairwiseRep {k k' : Nat} {ps : List (String × BExpr)}
    (h : FactClauses k ps k') :
    ps.Pairwise (fun p q => ∀ n m, repOf p n → repOf q m → n ≠ m) := by
  induction h with
  | nil => exact List.Pairwise.nil
  | cons hlt hp ht ih =>
    refine List.Pairwise.cons ?_ ih
    intro q hq n m hpn hqm
    obtain ⟨m2, hm1, _, hm3⟩ := ht.memRep q hq
    have hn := repOf_unique hpn hp
    have hm := repOf_unique hqm hm3
    omega

theorem buildAsserts_factBlock :
    ∀ (cs : List Constraint) (k k2 : Nat), FactBlock k cs k2 →
      ∀ (vars : List String) (acc : List (String × BExpr)),
        ∃ tracked vf, buildAsserts cs vars acc = .ok (acc ++ tracked, vf) ∧
          FactClauses k tracked k2 := by
  intro cs
  induction cs with
  | nil =>
    intro k k2 hfb vars acc
    refine ⟨[], vars, by simp [buildAsserts], ?_⟩
    cases hfb with
    | nil _ _ h => exact .nil _ _ h
  | cons c rest ih =>
    intro k k2 hfb vars acc
    cases hfb with
    | cons hlt hc ht =>
      rename_i n
      obtain ⟨hvars, hlf, hhard⟩ := hc
      rcases hlf with hlf | hlf
      · have hparse := parseLogicToZ3_factTrue n vars
        obtain ⟨tracked, vf, hba, hfc⟩ :=
          ih n k2 ht (addVar (factVar n) vars)
            (acc ++ [(c.id, BExpr.var (factVar n))])
        refine ⟨(c.id, BExpr.var (factVar n)) :: tracked, vf, ?_, ?_⟩
        · simp only [buildAsserts, hlf, hparse]
          rw [hba]
          simp
        · exact .cons hlt (Or.inl rfl) hfc
      · have hparse := parseLogicToZ3_factFalse n vars
        obtain ⟨tracked, vf, hba, hfc⟩ :=
          ih n k2 ht (addVar (factVar n) vars)
            (acc ++ [(c.id, BExpr.not (BExpr.var (factVar n)))])
        refine ⟨(c.id, BExpr.not (BExpr.var (factVar n))) :: tracked, vf, ?_, ?_⟩
        · simp only [buildAsserts, hlf, hparse]
          rw [hba]
          simp
        · exact .cons hlt (Or.inr rfl) hfc

/-- The canonical satisfying assignment: a variable is true exactly when
it occurs as a positive fact literal among the tracked clauses. -/
def factModel (tracked : List (String × BExpr)) : String → Bool :=
  fun v => tracked.any (fun p => decide (p.2 = BExpr.var v))

theorem factClauses_sat {k k' : Nat} {tracked : List (String × BExpr)}
    (h : FactClauses k tracked k') : ClausesSat (factModel tracked) tracked := by
  intro p hp
  obtain ⟨n, _, _, hrep⟩ := h.memRep p hp
  rcases hrep with hv | hnv
  · rw [hv]
    simp only [evalB, factModel]
    exact List.any_eq_true.mpr ⟨p, hp, by simp [hv]⟩
  · rw [hnv]
    simp only [evalB, factModel, Bool.not_eq_true']
    apply List.any_eq_false.mpr
    intro q hq
    simp only [decide_eq_true_eq]
    intro hqeq
    by_cases hpq : p = q
    · rw [← hpq] at hqeq
      rw [hnv] at hqeq
      exact absurd hqeq (by simp)
    · obtain ⟨m, _, _, hqrep⟩ := h.memRep q hq
      have hsym : Symmetric
          (fun p q : String × BExpr =>
            ∀ n m, repOf p n → repOf q m → n ≠ m) :=
        fun a b hab u w hbu haw => (hab w u haw hbu).symm
      have hrel := h.pairwiseRep.forall hsym hp hq hpq
      exact hrel n n (Or.inr hnv) (Or.inl hqeq) rfl

/-- Claim C9: every constraint set produced entirely by the
pattern-based fallback extractor is jointly satisfiable.  Each fallback
constraint constrains a freshly minted variable `fact_N` (strictly
increasing counter `N > k`) of the form `fact_N == True` or
`fact_N == False`, that variable appears in no other constraint of the
batch (the `variables` lists are pairwise distinct), and
`validate_consistency` on any such batch (for any solver satisfying the
Z3 contract) returns `satisfiable = true` — the fallback path alone
never produces a detected conflict. -/
theorem claim_C9_fallback_satisfiable
    (check : List (String × BExpr) → SolverResult) (hgood : goodSolver check)
    (st : Z3State) (fs : List Finding) (k : Nat) :
    (∀ c ∈ (extractConstraintsFB fs k).1, ∃ n, k < n ∧ IsFact n c) ∧
    ((extractConstraintsFB fs k).1.Pairwise
      (fun a b => a.variables' ≠ b.variables')) ∧
    ∃ res : ValidationResult,
      (validateConsistency check st (extractConstraintsFB fs k).1 false).1 =
        .ok res ∧ res.satisfiable = true := by
  have hfb := extractConstraintsFB_factBlock fs k
  refine ⟨?_, hfb.pairwise_vars, ?_⟩
  · intro c hc
    obtain ⟨n, h1, _, h3⟩ := hfb.mem c hc
    exact ⟨n, h1, h3⟩
  · cases hcs : (extractConstraintsFB fs k).1 with
    | nil =>
      exact ⟨{ satisfiable := true, status := "sat",
               explanation := "No constraints to validate" }, rfl, rfl⟩
    | cons c0 rest =>
      rw [hcs] at hfb
      have hact : activeOf (c0 :: rest) false = c0 :: rest := by
        unfold activeOf
        apply List.filter_eq_self.mpr
        intro c hc
        obtain ⟨n, _, _, hf⟩ := hfb.mem c hc
        simp [hf.2.2]
      obtain ⟨tracked, vf, hba, hfc⟩ :=
        buildAsserts_factBlock (c0 :: rest) _ _ hfb
          (initialVars (c0 :: rest)) []
      have hb2 : buildAsserts (activeOf (c0 :: rest) false)
          (initialVars (activeOf (c0 :: rest) false)) [] =
          .ok (tracked, vf) := by
        rw [hact]
        simpa using hba
      have hv := validateConsistency_eq check st (c0 :: rest) false tracked vf
        rfl (by rw [hact]; rfl) hb2
      cases hcheck : check tracked with
      | sat m =>
        refine ⟨{ satisfiable := true
                  status := "sat"
                  model := some (vf.map (fun v => (v, m v)))
                  explanation := "All constraints are logically consistent" },
          ?_, rfl⟩
        rw [hv]
        dsimp only
        rw [hcheck]
      | unsat core =>
        exfalso
        obtain ⟨hsub, hcu⟩ := ((hgood tracked).2.1) core hcheck
        apply hcu
        refine ⟨factModel tracked, ?_⟩
        intro p hp
        exact factClauses_sat hfc p (List.mem_of_mem_filter hp)
      | unknown => exact absurd hcheck (hgood tracked).2.2

def c9f1 : Finding :=
  { quote := "He did not meet her. The defendant was present at the scene." }

theorem claim_C9_witness :
    goodSolver bruteCheck ∧
    ((∀ c ∈ (extractConstraintsFB [c9f1] 0).1, ∃ n, 0 < n ∧ IsFact n c) ∧
     ((extractConstraintsFB [c9f1] 0).1.Pairwise
       (fun a b => a.variables' ≠ b.variables')) ∧
     ∃ res : ValidationResult,
       (validateConsistency bruteCheck {} (extractConstraintsFB [c9f1] 0).1
         false).1 = .ok res ∧ res.satisfiable = true) :=
  ⟨bruteCheck_good,
   claim_C9_fallback_satisfiable bruteCheck bruteCheck_good {} [c9f1] 0⟩

end CV
